import Mathlib

/-!
# Verification of the route-planning engine (src/app.py)

Shallow embedding of the core of `app.py`: the haversine fallback distance,
the OSRM distance/geometry providers (the HTTP response is modelled as an
explicit `Option OsrmResponse` argument; `none` stands for a raised
exception or timeout), the distance-matrix builder, the `Graph` class, and
the `dijkstra`, `prim_mst`, `dfs_traversal` and `plan_route` functions.

Real-number quantities coming from geometry (`haversine_distance`,
`get_distance_osrm`) are modelled over `ℝ`.  The graph algorithms operate
on whatever numbers the distance provider hands them (the source is
untyped Python), and the claims about them quantify over arbitrary
symmetric distance matrices, so they are embedded generically over a
linearly ordered weight type `α` with an additive zero; `plan_route`
instantiates them at `ℚ`.  Python's `float('inf')` is modelled by
`Option α` with `none` playing the role of infinity (`oLT`, `oAddW`
mirror the float comparisons and additions that actually occur: no NaN
can arise in these functions).
-/

/-- `math.radians`: degrees to radians. -/
noncomputable def radians (x : ℝ) : ℝ := x * Real.pi / 180

/-- `haversine_distance` from `app.py` (lines 14-29): great-circle distance,
Earth radius 6371 km. -/
noncomputable def haversine_distance (lat1 lon1 lat2 lon2 : ℝ) : ℝ :=
  let R : ℝ := 6371
  let dlat := radians (lat2 - lat1)
  let dlon := radians (lon2 - lon1)
  let a := Real.sin (dlat / 2) ^ 2 +
    Real.cos (radians lat1) * Real.cos (radians lat2) * Real.sin (dlon / 2) ^ 2
  let c := 2 * Real.arcsin (Real.sqrt a)
  R * c

/-- One route object of an OSRM response: `routes[k]["distance"]` (metres) and
`routes[k]["geometry"]["coordinates"]` (GeoJSON `(lon, lat)` pairs). -/
structure OsrmRoute where
  distance : ℝ
  geometry : List (ℝ × ℝ)

/-- The observable part of an OSRM HTTP response used by `app.py`:
`response.status_code`, `data["code"]` and `data["routes"]`. -/
structure OsrmResponse where
  status_code : Nat
  code : String
  routes : List OsrmRoute

/-- `get_distance_osrm` (lines 32-54).  The network interaction is modelled by
the explicit argument `resp`: `none` is a raised exception (network error or
timeout), `some r` a received HTTP response.  On any failure the function
falls back to `haversine_distance`. -/
noncomputable def get_distance_osrm (resp : Option OsrmResponse)
    (lat1 lon1 lat2 lon2 : ℝ) : ℝ :=
  match resp with
  | none => haversine_distance lat1 lon1 lat2 lon2
  | some r =>
    if r.status_code = 200 then
      if r.code = "Ok" then
        match r.routes with
        | route :: _ => route.distance / 1000
        | [] => haversine_distance lat1 lon1 lat2 lon2
      else haversine_distance lat1 lon1 lat2 lon2
    else haversine_distance lat1 lon1 lat2 lon2

/-- `get_route_geometry_osrm` (lines 57-84).  Same response model as
`get_distance_osrm`; converts the GeoJSON `(lon, lat)` pairs to `(lat, lon)`,
and falls back to the straight line `[[lat1, lon1], [lat2, lon2]]`. -/
def get_route_geometry_osrm (resp : Option OsrmResponse)
    (lat1 lon1 lat2 lon2 : ℝ) : List (ℝ × ℝ) :=
  match resp with
  | none => [(lat1, lon1), (lat2, lon2)]
  | some r =>
    if r.status_code = 200 then
      if r.code = "Ok" then
        match r.routes with
        | route :: _ => route.geometry.map (fun coord => (coord.2, coord.1))
        | [] => [(lat1, lon1), (lat2, lon2)]
      else [(lat1, lon1), (lat2, lon2)]
    else [(lat1, lon1), (lat2, lon2)]

/-- `build_distance_matrix` (lines 87-103), generic in the scalar type `β` of
coordinates and the value type `α` of distances (the source is untyped
Python; the distance provider `get_distance_osrm` is abstracted into the
argument `dist`).  Starts from an `n × n` zero matrix and, for every pair
`i < j`, writes the provider's value into both `matrix[i][j]` and
`matrix[j][i]`. -/
def build_distance_matrix {β α : Type} [Inhabited β] [Zero α]
    (dist : β → β → β → β → α) (coords : List (β × β)) : List (List α) :=
  let n := coords.length
  let matrix0 := List.replicate n (List.replicate n (0 : α))
  (List.range n).foldl (fun matrix i =>
    (List.range' (i + 1) (n - (i + 1))).foldl (fun matrix j =>
      let p := coords[i]!
      let q := coords[j]!
      let distance := dist p.1 p.2 q.1 q.2
      let matrix1 := matrix.set i ((matrix.getD i []).set j distance)
      matrix1.set j ((matrix1.getD j []).set i distance)) matrix) matrix0

/-- Read entry `(i, j)` of a matrix represented as a list of rows
(out-of-range reads default to `0`, mirroring that the Python code never
reads out of range). -/
def mread {α : Type} [Zero α] (matrix : List (List α)) (i j : Nat) : α :=
  (matrix.getD i []).getD j 0

/-- The `Graph` class (lines 106-120): number of vertices and adjacency
lists, generic in the weight type.  The Python `dict` from vertex to
neighbour list is modelled as a function; keys outside
`0 .. num_vertices - 1` map to `[]`. -/
structure Graph (α : Type) where
  num_vertices : Nat
  adj : Nat → List (Nat × α)

/-- `Graph.__init__`: empty adjacency lists. -/
def Graph.empty (α : Type) (n : Nat) : Graph α := ⟨n, fun _ => []⟩

/-- `Graph.add_edge` (lines 113-116): append `(v, weight)` to `adj[u]`, then
`(u, weight)` to `adj[v]`. -/
def Graph.add_edge {α : Type} (g : Graph α) (u v : Nat) (weight : α) : Graph α :=
  let adj1 := fun x => if x = u then g.adj x ++ [(v, weight)] else g.adj x
  { g with adj := fun x => if x = v then adj1 x ++ [(u, weight)] else adj1 x }

/-- The complete graph that `plan_route` builds in step 2 (lines 246-250):
`add_edge i j (matrix i j)` for every ordered pair `i ≠ j` of vertices. -/
def complete_graph {α : Type} (n : Nat) (matrix : Nat → Nat → α) : Graph α :=
  (List.range n).foldl (fun g i =>
    (List.range n).foldl (fun g j =>
      if i ≠ j then g.add_edge i j (matrix i j) else g) g) (Graph.empty α n)

/-- Python float comparison `x < y` where `none` stands for `float('inf')`:
`inf < inf` is false, every finite value is `< inf`, and `inf < finite` is
false. -/
def oLT {α : Type} [LinearOrder α] : Option α → Option α → Bool
  | some a, some b => decide (a < b)
  | some _, none => true
  | none, _ => false

/-- Python float addition `x + w` for a possibly-infinite `x` and finite `w`:
`inf + w = inf`. -/
def oAddW {α : Type} [Add α] : Option α → α → Option α
  | some a, w => some (a + w)
  | none, _ => none

/-- The minimum-selection scan inside `dijkstra`'s main loop (lines 135-140):
find the unvisited vertex with minimum tentative distance, scanning
`range(num_vertices)` with a strict comparison (so the earliest index
attaining the minimum wins).  Returns `(u, min_dist)`. -/
def dijkstra_select {α : Type} [LinearOrder α] (n : Nat)
    (dist : Nat → Option α) (visited : Finset Nat) :
    Option Nat × Option α :=
  (List.range n).foldl (fun acc i =>
    if i ∉ visited ∧ oLT (dist i) acc.2 then (some i, dist i) else acc)
    (none, none)

/-- The relaxation of all neighbours of `u` (lines 147-153): for each
`(v, weight)` in `adj[u]` with `v` unvisited, if
`alt = distances[u] + weight < distances[v]` then update `distances[v]` and
`previous[v]`. -/
def dijkstra_relax {α : Type} [LinearOrder α] [Add α] (u : Nat)
    (neighbors : List (Nat × α)) (visited : Finset Nat)
    (dp : (Nat → Option α) × (Nat → Option Nat)) :
    (Nat → Option α) × (Nat → Option Nat) :=
  neighbors.foldl (fun dp vw =>
    if vw.1 ∉ visited then
      let alt := oAddW (dp.1 u) vw.2
      if oLT alt (dp.1 vw.1) then
        (fun x => if x = vw.1 then alt else dp.1 x,
         fun x => if x = vw.1 then some u else dp.2 x)
      else dp
    else dp) dp

/-- The `while len(visited) < num_vertices` loop of `dijkstra`
(lines 133-153), with explicit fuel.  Each productive iteration adds one
vertex to `visited`, so fuel `num_vertices` always suffices; on `u = None`
or `u = end` the loop breaks. -/
def dijkstra_loop {α : Type} [LinearOrder α] [Add α] (g : Graph α) (en : Nat) :
    Nat → (Nat → Option α) → (Nat → Option Nat) → Finset Nat →
    (Nat → Option α) × (Nat → Option Nat)
  | 0, dist, prev, _ => (dist, prev)
  | fuel + 1, dist, prev, visited =>
    if visited.card < g.num_vertices then
      match (dijkstra_select g.num_vertices dist visited).1 with
      | none => (dist, prev)
      | some u =>
        if u = en then (dist, prev)
        else
          let visited1 := insert u visited
          let dp := dijkstra_relax u (g.adj u) visited1 (dist, prev)
          dijkstra_loop g en fuel dp.1 dp.2 visited1
    else (dist, prev)

/-- Path reconstruction (lines 156-160): walk `previous` pointers backward
from `end`, prepending each vertex.  In `app.py` this is a `while` loop; in
every actual run the `previous` chain is acyclic with length at most
`num_vertices`, so the fuel `num_vertices + 1` used below never runs out. -/
def build_path (prev : Nat → Option Nat) : Nat → Nat → List Nat → List Nat
  | 0, u, path => u :: path
  | fuel + 1, u, path =>
    match prev u with
    | none => u :: path
    | some p => build_path prev fuel p (u :: path)

/-- `dijkstra` (lines 123-162): returns `(path, distances[end])`.
`distances` starts at `inf` everywhere except `distances[start] = 0`. -/
def dijkstra {α : Type} [LinearOrder α] [Add α] [Zero α] (g : Graph α)
    (start en : Nat) : List Nat × Option α :=
  let dist0 : Nat → Option α := fun x => if x = start then some 0 else none
  let prev0 : Nat → Option Nat := fun _ => none
  let dp := dijkstra_loop g en g.num_vertices dist0 prev0 ∅
  (build_path dp.2 (g.num_vertices + 1) en [], dp.1 en)

/-- The scan inside `prim_mst`'s loop (lines 178-186): the globally minimum
weight edge from a visited vertex to an unvisited one.  Python iterates over
the `visited` set; small-integer insertion order is modelled by keeping
`visited` as a list in insertion order. -/
def prim_scan {α : Type} [LinearOrder α] (g : Graph α) (visited : List Nat) :
    Option (Nat × Nat) × Option α :=
  visited.foldl (fun acc u =>
    (g.adj u).foldl (fun acc vw =>
      if vw.1 ∉ visited ∧ oLT (some vw.2) acc.2 then (some (u, vw.1), some vw.2)
      else acc) acc)
    (none, none)

/-- The `while len(visited) < n` loop of `prim_mst` (lines 177-192) with
explicit fuel: either no connecting edge exists and the loop breaks
returning the edges accumulated so far, or the minimum edge is appended and
its unvisited endpoint marked visited. -/
def prim_loop {α : Type} [LinearOrder α] (g : Graph α) :
    Nat → List Nat → List (Nat × Nat) → List (Nat × Nat)
  | 0, _, mst_edges => mst_edges
  | fuel + 1, visited, mst_edges =>
    if visited.length < g.num_vertices then
      match (prim_scan g visited).1 with
      | none => mst_edges
      | some e => prim_loop g fuel (visited ++ [e.2]) (mst_edges ++ [e])
    else mst_edges

/-- `prim_mst` (lines 165-194): Prim's algorithm starting from vertex `0`.
Each productive iteration grows `visited` by one, so fuel `num_vertices`
always suffices (proved below as theorem `prim_mst_terminates`). -/
def prim_mst {α : Type} [LinearOrder α] (g : Graph α) : List (Nat × Nat) :=
  prim_loop g g.num_vertices [0] []

/-- The adjacency map `dfs_traversal` builds from the MST edges
(lines 202-206): each edge contributes both directions, in edge-list
order. -/
def dfs_adj (mst_edges : List (Nat × Nat)) : Nat → List Nat :=
  mst_edges.foldl (fun adj e =>
    let adj1 := fun x => if x = e.1 then adj x ++ [e.2] else adj x
    fun x => if x = e.2 then adj1 x ++ [e.1] else adj1 x)
    (fun _ => [])

/-- The recursive inner `dfs` of `dfs_traversal` (lines 211-217), with
explicit fuel.  The state is `(visited, traversal_order)`; a vertex is
skipped if already visited, otherwise it is appended to both lists and its
neighbours are visited in order. -/
def dfs_visit (adj : Nat → List Nat) : Nat → Nat → List Nat × List Nat →
    List Nat × List Nat
  | 0, _, st => st
  | fuel + 1, u, st =>
    if u ∈ st.1 then st
    else
      let st1 := (st.1 ++ [u], st.2 ++ [u])
      (adj u).foldl (fun st v => dfs_visit adj fuel v st) st1

/-- `dfs_traversal` (lines 197-220): DFS linearisation of the MST starting
at `start`.  There are `len(mst_edges) + 1` vertices, and each productive
recursive call visits a new vertex, so fuel `len(mst_edges) + 2` always
suffices (any fuel strictly larger than the number of vertices that can
still be visited does; this choice is proved adequate below). -/
def dfs_traversal (mst_edges : List (Nat × Nat)) (start : Nat) : List Nat :=
  (dfs_visit (dfs_adj mst_edges) (mst_edges.length + 2) start ([], [])).2

/-- Python float addition of two possibly-infinite values (used for the
`total_distance += dist` accumulation in `plan_route`). -/
def oAdd : Option ℚ → Option ℚ → Option ℚ
  | some a, some b => some (a + b)
  | _, _ => none

/-- Python's `round(x, 2)`: round to a multiple of `1/100`, ties going to
the even multiple (banker's rounding). -/
def round2 (q : ℚ) : ℚ :=
  let r := q * 100
  let k : Int :=
    if r - Int.floor r < 1 / 2 then Int.floor r
    else if 1 / 2 < r - Int.floor r then Int.floor r + 1
    else if 2 ∣ Int.floor r then Int.floor r else Int.floor r + 1
  (k : ℚ) / 100

/-- The dictionary returned by `plan_route` (lines 233-239 and 289-294).
`total_distance` is an `Option ℚ` because the accumulated Dijkstra
distances are floats that are infinite in principle (never in an actual
run). -/
structure RoutePlan (β : Type) where
  visiting_order : List Nat
  route_coords : List (β × β)
  total_distance : Option ℚ
  road_segments : List (List (β × β))

/-- `plan_route` (lines 223-294), generic in the coordinate scalar type `β`
and abstracted over the two external collaborators: `dist` models
`get_distance_osrm` (returning `ℚ` so the graph algorithms are executable)
and `geo` models `get_route_geometry_osrm`.  The result is `none` exactly
when the Python code raises (the `coords[0]` IndexError on empty input);
otherwise it is the returned dictionary. -/
def plan_route {β : Type} [Inhabited β]
    (dist : β → β → β → β → ℚ)
    (geo : β → β → β → β → List (β × β))
    (coords : List (β × β)) : Option (RoutePlan β) :=
  if coords.length < 2 then
    match coords with
    | [] => none
    | c0 :: _ => some ⟨[0], [c0], some 0, []⟩
  else
    let distance_matrix := build_distance_matrix dist coords
    let graph := complete_graph coords.length (fun i j => mread distance_matrix i j)
    let mst_edges := prim_mst graph
    let visiting_order := dfs_traversal mst_edges 0
    let steps := (List.range visiting_order.length).foldl (fun acc i =>
      let current := visiting_order.getD i 0
      let rc := acc.1 ++ [coords[current]!]
      if i < visiting_order.length - 1 then
        let next_node := visiting_order.getD (i + 1) 0
        (rc, oAdd acc.2 (dijkstra graph current next_node).2)
      else (rc, acc.2)) ([], some 0)
    let road_segments := (List.range (visiting_order.length - 1)).map (fun i =>
      let p := coords[visiting_order.getD i 0]!
      let q := coords[visiting_order.getD (i + 1) 0]!
      geo p.1 p.2 q.1 q.2)
    some ⟨visiting_order, steps.1, (steps.2).map round2, road_segments⟩

/-- Reachability in the undirected graph given by an edge list (each listed
edge usable in both directions).  Used to state spanning/connectivity
properties of `prim_mst` and the connectivity hypothesis on the tree fed to
`dfs_traversal`. -/
inductive ReachableE (edges : List (Nat × Nat)) : Nat → Nat → Prop
  | refl (a : Nat) : ReachableE edges a a
  | tail {a b c : Nat} : ReachableE edges a b →
      ((b, c) ∈ edges ∨ (c, b) ∈ edges) → ReachableE edges a c

/-- Acyclicity of an edge list, stated as the standard forest
characterisation: every edge is a bridge, i.e. removing any single edge
leaves its two endpoints disconnected. -/
def AcyclicE (edges : List (Nat × Nat)) : Prop :=
  ∀ i (h : i < edges.length),
    ¬ ReachableE (edges.eraseIdx i) (edges.get ⟨i, h⟩).1 (edges.get ⟨i, h⟩).2

/-- The symmetric, zero-diagonal, non-negative matrix used to refute C1:
the direct edge `0 ↔ 1` has weight `10` but the two-hop path through
vertex `2` has weight `1 + 1 = 2`, so the triangle inequality fails. -/
def exC1 : Nat → Nat → ℤ := fun i j =>
  if i = j then 0 else if i + j = 1 then 10 else 1

/-- C4: on a single point `plan_route` returns the degenerate plan
(visiting order `[0]`, route coordinates `[points[0]]`, total distance `0`,
no road segments); on the empty list it fails (the `coords[0]` IndexError,
modelled by `none`). -/
theorem plan_route_degenerate {β : Type} [Inhabited β]
    (dist : β → β → β → β → ℚ) (geo : β → β → β → β → List (β × β))
    (p : β × β) :
    plan_route dist geo [p] = some ⟨[0], [p], some 0, []⟩ ∧
    plan_route dist geo ([] : List (β × β)) = none :=
  ⟨rfl, rfl⟩

/-- C5: whenever the OSRM call fails — raised exception (`resp = none`),
non-200 status, a code other than `"Ok"`, or an empty route list — the
distance function returns exactly the haversine value and the geometry
function returns exactly the two-point straight line; no error surfaces. -/
theorem osrm_failure_fallback (resp : Option OsrmResponse)
    (lat1 lon1 lat2 lon2 : ℝ)
    (h : resp = none ∨ ∃ r, resp = some r ∧
      (r.status_code ≠ 200 ∨ r.code ≠ "Ok" ∨ r.routes = [])) :
    get_distance_osrm resp lat1 lon1 lat2 lon2 =
      haversine_distance lat1 lon1 lat2 lon2 ∧
    get_route_geometry_osrm resp lat1 lon1 lat2 lon2 =
      [(lat1, lon1), (lat2, lon2)] := by
  rcases h with rfl | ⟨r, rfl, hr⟩
  · exact ⟨rfl, rfl⟩
  · simp only [get_distance_osrm, get_route_geometry_osrm]
    rcases hr with h | h | h
    · rw [if_neg h, if_neg h]
      exact ⟨rfl, rfl⟩
    · by_cases hs : r.status_code = 200
      · rw [if_pos hs, if_pos hs, if_neg h, if_neg h]
        exact ⟨rfl, rfl⟩
      · rw [if_neg hs, if_neg hs]
        exact ⟨rfl, rfl⟩
    · by_cases hs : r.status_code = 200
      · by_cases hc : r.code = "Ok"
        · rw [if_pos hs, if_pos hs, if_pos hc, if_pos hc, h]
          exact ⟨rfl, rfl⟩
        · rw [if_pos hs, if_pos hs, if_neg hc, if_neg hc]
          exact ⟨rfl, rfl⟩
      · rw [if_neg hs, if_neg hs]
        exact ⟨rfl, rfl⟩

/-- Witness for `osrm_failure_fallback` at a concrete failing response. -/
theorem osrm_failure_fallback_witness :
    get_distance_osrm none 1 2 3 4 = haversine_distance 1 2 3 4 ∧
    get_route_geometry_osrm none 1 2 3 4 = [((1 : ℝ), 2), (3, 4)] :=
  osrm_failure_fallback none 1 2 3 4 (Or.inl rfl)

/-- C6 counterexample: on a 2-vertex graph with no edges, Prim's scan finds
no edge connecting the visited set `{0}` to the unvisited vertex `1`, yet
`prim_mst` neither aborts nor signals anything: it returns the partial
(non-spanning) edge list `[]` — not the `N - 1 = 1` edges of a spanning
tree — as an ordinary value, which `plan_route` would accept. -/
theorem prim_mst_no_abort_counterexample :
    prim_mst (⟨2, fun _ => []⟩ : Graph ℤ) = [] ∧
    (prim_scan (⟨2, fun _ => []⟩ : Graph ℤ) [0]).1 = none ∧
    (prim_mst (⟨2, fun _ => []⟩ : Graph ℤ)).length ≠ 2 - 1 := by
  decide

/-- C6 amended: when the scan finds no connecting edge before all vertices
are visited, the `prim_mst` loop simply halts and returns the edge list
accumulated so far as an ordinary value; no abort or error path exists. -/
theorem prim_loop_halts_without_candidate {α : Type} [LinearOrder α]
    (g : Graph α) (fuel : Nat)
    (visited : List Nat) (mst_edges : List (Nat × Nat))
    (hlt : visited.length < g.num_vertices)
    (hnone : (prim_scan g visited).1 = none) :
    prim_loop g (fuel + 1) visited mst_edges = mst_edges := by
  unfold prim_loop
  rw [if_pos hlt, hnone]

/-- Witness for `prim_loop_halts_without_candidate` on the concrete
edgeless 2-vertex graph. -/
theorem prim_loop_halts_without_candidate_witness :
    prim_loop (⟨2, fun _ => []⟩ : Graph ℤ) 2 [0] [] = [] :=
  prim_loop_halts_without_candidate (⟨2, fun _ => []⟩ : Graph ℤ) 1 [0] []
    (by decide) (by decide)

/-- C1 counterexample: for the symmetric distance matrix `exC1` (zero
diagonal, non-negative entries), Dijkstra on the complete graph built from
it does NOT return the direct entry `matrix[0][1] = 10`: it returns the
shorter two-hop distance `2`.  The claimed result-equivalence with a direct
matrix lookup fails for general symmetric matrices (it needs the triangle
inequality). -/
theorem dijkstra_not_direct_lookup :
    (∀ i < 3, ∀ j < 3, exC1 i j = exC1 j i) ∧
    (∀ i < 3, exC1 i i = 0) ∧
    (∀ i < 3, ∀ j < 3, 0 ≤ exC1 i j) ∧
    (dijkstra (complete_graph 3 exC1) 0 1).2 = some 2 ∧
    (dijkstra (complete_graph 3 exC1) 0 1).2 ≠ some (exC1 0 1) := by
  decide

/-- If every element of `l` fails the selection condition against the fixed
accumulator, the selection fold leaves the accumulator unchanged. -/
theorem select_foldl_skip {α : Type} [LinearOrder α]
    (dist : Nat → Option α) (visited : Finset Nat) (l : List Nat)
    (acc : Option Nat × Option α)
    (h : ∀ i ∈ l, ¬(i ∉ visited ∧ oLT (dist i) acc.2 = true)) :
    l.foldl (fun acc i =>
      if i ∉ visited ∧ oLT (dist i) acc.2 then (some i, dist i) else acc) acc
      = acc := by
  induction l with
  | nil => rfl
  | cons a l ih =>
    simp only [List.foldl_cons]
    rw [if_neg (h a (List.mem_cons_self a l))]
    exact ih (fun i hi => h i (List.mem_cons_of_mem a hi))

/-- On the initial Dijkstra distance assignment (0 at the start vertex,
infinity everywhere else) the selection scan picks the start vertex. -/
theorem dijkstra_select_init {α : Type} [LinearOrder α] [Zero α]
    (n s : Nat) (hs : s < n) :
    dijkstra_select n (fun x => if x = s then some (0 : α) else none) ∅ =
      (some s, some 0) := by
  unfold dijkstra_select
  obtain ⟨k, hk⟩ : ∃ k, n - s = k + 1 := ⟨n - s - 1, by omega⟩
  have hsplit : List.range n = List.range' 0 s ++ s :: List.range' (s + 1) k := by
    have h1 : List.range' 0 s ++ List.range' s (n - s) = List.range' 0 n := by
      have h2 := List.range'_append 0 s (n - s) 1
      have h3 : n - s + s = n := Nat.sub_add_cancel (le_of_lt hs)
      simpa [h3] using h2
    rw [List.range_eq_range', ← h1, hk, List.range'_succ]
  rw [hsplit, List.foldl_append]
  have hA := select_foldl_skip (fun x => if x = s then some (0 : α) else none)
    ∅ (List.range' 0 s) (none, none) (by
      intro i hi
      have hi2 : i < 0 + s := (List.mem_range'_1.mp hi).2
      have hine : i ≠ s := by omega
      simp [hine, oLT])
  rw [hA, List.foldl_cons]
  dsimp only
  rw [if_pos (rfl : s = s)]
  rw [if_pos (⟨Finset.not_mem_empty s, rfl⟩ :
    s ∉ (∅ : Finset Nat) ∧ oLT (some (0 : α)) none = true)]
  exact select_foldl_skip (fun x => if x = s then some (0 : α) else none)
    ∅ (List.range' (s + 1) k) (some s, some 0) (by
      intro i hi
      have hi2 : s + 1 ≤ i := (List.mem_range'_1.mp hi).1
      have hine : i ≠ s := by omega
      simp [hine, oLT])

/-- C10: when source equals target, `dijkstra` selects the source first
(the only vertex at finite distance), breaks immediately without relaxing
any edge, and returns the single-vertex path `[s]` with distance `0`. -/
theorem dijkstra_source_eq_target {α : Type} [LinearOrder α] [Add α] [Zero α]
    (g : Graph α) (s : Nat) (hs : s < g.num_vertices) :
    dijkstra g s s = ([s], some 0) := by
  obtain ⟨f, hf⟩ : ∃ f, g.num_vertices = f + 1 := ⟨g.num_vertices - 1, by omega⟩
  have hsel := dijkstra_select_init (α := α) g.num_vertices s hs
  have hcard : (∅ : Finset Nat).card < g.num_vertices := by
    rw [Finset.card_empty]; omega
  unfold dijkstra
  rw [hf]
  simp only [dijkstra_loop]
  rw [← hf, if_pos hcard, hsel]
  simp only [eq_self_iff_true, if_true]
  rw [Prod.mk.injEq]
  refine ⟨?_, ?_⟩
  · simp only [build_path]
  · simp

/-- Witness for `dijkstra_source_eq_target` on a concrete 2-vertex complete
graph. -/
theorem dijkstra_source_eq_target_witness :
    dijkstra (complete_graph 2 (fun _ _ => (1 : ℤ))) 0 0 = ([0], some 0) :=
  dijkstra_source_eq_target (complete_graph 2 (fun _ _ => (1 : ℤ))) 0 (by decide)

/-- Soundness of the inner scan fold of `prim_scan`: starting from an
accumulator holding `none` or a valid candidate, it only ever installs
candidates `(u, v)` with `u ∈ visited`, `v ∉ visited` and `(v, w)` an entry
of the scanned list. -/
theorem prim_scan_inner_sound {α : Type} [LinearOrder α] (g : Graph α)
    (visited : List Nat) (u : Nat) (hu : u ∈ visited)
    (l : List (Nat × α)) (hl : ∀ x ∈ l, x ∈ g.adj u)
    (acc : Option (Nat × Nat) × Option α)
    (hacc : acc.1 = none ∨ ∃ a b, acc.1 = some (a, b) ∧ a ∈ visited ∧
      b ∉ visited ∧ ∃ w, (b, w) ∈ g.adj a) :
    (l.foldl (fun acc vw =>
        if vw.1 ∉ visited ∧ oLT (some vw.2) acc.2 then (some (u, vw.1), some vw.2)
        else acc) acc).1 = none ∨
      ∃ a b, (l.foldl (fun acc vw =>
        if vw.1 ∉ visited ∧ oLT (some vw.2) acc.2 then (some (u, vw.1), some vw.2)
        else acc) acc).1 = some (a, b) ∧ a ∈ visited ∧ b ∉ visited ∧
        ∃ w, (b, w) ∈ g.adj a := by
  induction l generalizing acc with
  | nil => exact hacc
  | cons x t ih =>
    simp only [List.foldl_cons]
    refine ih (fun y hy => hl y (List.mem_cons_of_mem x hy)) _ ?_
    by_cases hc : x.1 ∉ visited ∧ oLT (some x.2) acc.2 = true
    · rw [if_pos hc]
      refine Or.inr ⟨u, x.1, rfl, hu, hc.1, x.2, ?_⟩
      exact hl x (List.mem_cons_self x t)
    · rw [if_neg hc]
      exact hacc

/-- Soundness of `prim_scan`: a returned candidate edge `(u, v)` always has
`u` visited, `v` unvisited, and `(v, w)` an entry of `adj[u]` for some
weight `w`. -/
theorem prim_scan_sound {α : Type} [LinearOrder α] (g : Graph α)
    (visited : List Nat) (u v : Nat)
    (h : (prim_scan g visited).1 = some (u, v)) :
    u ∈ visited ∧ v ∉ visited ∧ ∃ w, (v, w) ∈ g.adj u := by
  have main : ∀ (vs : List Nat), (∀ y ∈ vs, y ∈ visited) →
      ∀ (acc : Option (Nat × Nat) × Option α),
      (acc.1 = none ∨ ∃ a b, acc.1 = some (a, b) ∧ a ∈ visited ∧
        b ∉ visited ∧ ∃ w, (b, w) ∈ g.adj a) →
      ((vs.foldl (fun acc u =>
          (g.adj u).foldl (fun acc vw =>
            if vw.1 ∉ visited ∧ oLT (some vw.2) acc.2 then (some (u, vw.1), some vw.2)
            else acc) acc) acc).1 = none ∨
        ∃ a b, (vs.foldl (fun acc u =>
          (g.adj u).foldl (fun acc vw =>
            if vw.1 ∉ visited ∧ oLT (some vw.2) acc.2 then (some (u, vw.1), some vw.2)
            else acc) acc) acc).1 = some (a, b) ∧ a ∈ visited ∧ b ∉ visited ∧
          ∃ w, (b, w) ∈ g.adj a) := by
    intro vs
    induction vs with
    | nil => intro _ acc hacc; exact hacc
    | cons y t ih =>
      intro hsub acc hacc
      simp only [List.foldl_cons]
      refine ih (fun z hz => hsub z (List.mem_cons_of_mem y hz)) _ ?_
      exact prim_scan_inner_sound g visited y (hsub y (List.mem_cons_self y t))
        (g.adj y) (fun x hx => hx) acc hacc
  have h2 := main visited (fun y hy => hy) (none, none) (Or.inl rfl)
  unfold prim_scan at h
  rcases h2 with h2 | ⟨a, b, h2, ha, hb, hw⟩
  · rw [h] at h2; cases h2
  · rw [h] at h2
    obtain ⟨rfl, rfl⟩ : u = a ∧ v = b := by
      have := h2.symm
      injection this with h3
      injection h3 with h4 h5
      exact ⟨h4.symm, h5.symm⟩
    exact ⟨ha, hb, hw⟩

/-- `prim_loop` is fuel-stable: any two fuel amounts that are at least
`num_vertices - len(visited)` produce the same result, because every
iteration either breaks out of the loop or adds one vertex to `visited`. -/
theorem prim_loop_fuel_stable {α : Type} [LinearOrder α] (g : Graph α) :
    ∀ (f1 f2 : Nat) (visited : List Nat) (mst_edges : List (Nat × Nat)),
    g.num_vertices ≤ visited.length + f1 →
    g.num_vertices ≤ visited.length + f2 →
    prim_loop g f1 visited mst_edges = prim_loop g f2 visited mst_edges := by
  intro f1
  induction f1 with
  | zero =>
    intro f2 visited mst h1 h2
    cases f2 with
    | zero => rfl
    | succ m =>
      simp only [prim_loop]
      rw [if_neg (by omega : ¬ visited.length < g.num_vertices)]
  | succ k ih =>
    intro f2 visited mst h1 h2
    cases f2 with
    | zero =>
      simp only [prim_loop]
      rw [if_neg (by omega : ¬ visited.length < g.num_vertices)]
    | succ m =>
      simp only [prim_loop]
      by_cases hlt : visited.length < g.num_vertices
      · rw [if_pos hlt, if_pos hlt]
        cases hscan : (prim_scan g visited).1 with
        | none => rfl
        | some e =>
          refine ih m (visited ++ [e.2]) (mst ++ [e]) ?_ ?_ <;>
            (simp only [List.length_append, List.length_cons, List.length_nil]; omega)
      · rw [if_neg hlt, if_neg hlt]

/-- C9: `prim_mst` terminates on every finite graph, connected or not — the
default fuel `num_vertices` is enough, so adding any extra fuel does not
change the result (each iteration either adds a previously-unvisited vertex
to `visited`, which can happen at most `num_vertices` times, or scans no
connecting candidate and exits, returning the edges accumulated so far);
moreover every candidate the scan can select has an unvisited endpoint. -/
theorem prim_mst_terminates {α : Type} [LinearOrder α] (g : Graph α) :
    (∀ k, prim_loop g (g.num_vertices + k) [0] [] = prim_mst g) ∧
    (∀ visited u v, (prim_scan g visited).1 = some (u, v) → v ∉ visited) := by
  constructor
  · intro k
    unfold prim_mst
    apply prim_loop_fuel_stable <;> (simp only [List.length_singleton]; omega)
  · intro visited u v h
    exact (prim_scan_sound g visited u v h).2.1

/-- Witness for `prim_mst_terminates` (its second conjunct is an
implication) on a concrete 2-vertex graph with one edge. -/
theorem prim_mst_terminates_witness :
    prim_loop (⟨2, fun u => if u = 0 then [(1, (5 : ℤ))] else [(0, 5)]⟩ : Graph ℤ)
        (2 + 1) [0] [] =
      prim_mst (⟨2, fun u => if u = 0 then [(1, (5 : ℤ))] else [(0, 5)]⟩ : Graph ℤ) ∧
    (1 : Nat) ∉ [0] :=
  ⟨(prim_mst_terminates ⟨2, fun u => if u = 0 then [(1, (5 : ℤ))] else [(0, 5)]⟩).1 1,
   (prim_mst_terminates ⟨2, fun u => if u = 0 then [(1, (5 : ℤ))] else [(0, 5)]⟩).2
     [0] 0 1 (by decide)⟩

/-- Membership in an adjacency list after `add_edge`: the old entries plus
the two new directed entries. -/
theorem Graph.mem_add_edge_adj {α : Type} (g : Graph α) (a b x v : Nat) (q w : α) :
    (v, w) ∈ (g.add_edge a b q).adj x ↔
      (v, w) ∈ g.adj x ∨ (x = a ∧ v = b ∧ w = q) ∨ (x = b ∧ v = a ∧ w = q) := by
  unfold Graph.add_edge
  dsimp only
  by_cases hb : x = b
  · by_cases ha : x = a
    · subst hb
      subst ha
      simp [List.mem_append, Prod.mk.injEq]
    · subst hb
      rw [if_pos rfl, if_neg ha]
      simp [List.mem_append, Prod.mk.injEq, ha]
  · by_cases ha : x = a
    · subst ha
      rw [if_neg hb, if_pos rfl]
      simp [List.mem_append, Prod.mk.injEq, hb]
    · rw [if_neg hb, if_neg ha]
      simp [ha, hb]

/-- `add_edge` never removes adjacency entries. -/
theorem Graph.mem_add_edge_of_mem {α : Type} (g : Graph α) (a b x v : Nat)
    (q w : α) (h : (v, w) ∈ g.adj x) : (v, w) ∈ (g.add_edge a b q).adj x :=
  (Graph.mem_add_edge_adj g a b x v q w).mpr (Or.inl h)

/-- The inner construction fold of `complete_graph` preserves adjacency
entries. -/
theorem complete_graph_inner_mono {α : Type} (m : Nat → Nat → α) (i : Nat)
    (js : List Nat) (g : Graph α) (x v : Nat) (w : α)
    (h : (v, w) ∈ g.adj x) :
    (v, w) ∈ ((js.foldl (fun g j =>
      if i ≠ j then g.add_edge i j (m i j) else g) g).adj x) := by
  induction js generalizing g with
  | nil => exact h
  | cons j t ih =>
    simp only [List.foldl_cons]
    refine ih _ ?_
    by_cases hij : i ≠ j
    · rw [if_pos hij]
      exact Graph.mem_add_edge_of_mem g i j x v (m i j) w h
    · rw [if_neg hij]
      exact h

/-- The outer construction fold of `complete_graph` preserves adjacency
entries. -/
theorem complete_graph_outer_mono {α : Type} (m : Nat → Nat → α) (n : Nat)
    (is : List Nat) (g : Graph α) (x v : Nat) (w : α)
    (h : (v, w) ∈ g.adj x) :
    (v, w) ∈ ((is.foldl (fun g i => (List.range n).foldl (fun g j =>
      if i ≠ j then g.add_edge i j (m i j) else g) g) g).adj x) := by
  induction is generalizing g with
  | nil => exact h
  | cons i t ih =>
    simp only [List.foldl_cons]
    exact ih _ (complete_graph_inner_mono m i (List.range n) g x v w h)

/-- After the inner fold for source vertex `x` has processed `v ≠ x`, the
entry `(v, m x v)` is present in `adj[x]`. -/
theorem complete_graph_inner_adds {α : Type} (m : Nat → Nat → α) (x : Nat)
    (js : List Nat) (g : Graph α) (v : Nat) (hv : v ∈ js) (hne : x ≠ v) :
    (v, m x v) ∈ ((js.foldl (fun g j =>
      if x ≠ j then g.add_edge x j (m x j) else g) g).adj x) := by
  induction js generalizing g with
  | nil => cases hv
  | cons j t ih =>
    simp only [List.foldl_cons]
    rcases List.mem_cons.mp hv with rfl | hv2
    · refine complete_graph_inner_mono m x t _ x v (m x v) ?_
      rw [if_pos hne]
      refine (Graph.mem_add_edge_adj g x v x v (m x v) (m x v)).mpr ?_
      exact Or.inr (Or.inl ⟨rfl, rfl, rfl⟩)
    · exact ih _ hv2

/-- Every required entry is present: for `x ≠ v` both below `n`, the
complete graph's `adj[x]` contains `(v, m x v)`. -/
theorem complete_graph_adj_covers {α : Type} (n : Nat) (m : Nat → Nat → α)
    (x v : Nat) (hx : x < n) (hv : v < n) (hne : v ≠ x) :
    (v, m x v) ∈ (complete_graph n m).adj x := by
  unfold complete_graph
  have main : ∀ (is : List Nat) (g : Graph α), x ∈ is →
      (v, m x v) ∈ ((is.foldl (fun g i => (List.range n).foldl (fun g j =>
        if i ≠ j then g.add_edge i j (m i j) else g) g) g).adj x) := by
    intro is
    induction is with
    | nil => intro g h; cases h
    | cons i t ih =>
      intro g hmem
      simp only [List.foldl_cons]
      rcases List.mem_cons.mp hmem with rfl | h2
      · by_cases hxt : x ∈ t
        · exact ih _ hxt
        · refine complete_graph_outer_mono m n t _ x v (m x v) ?_
          exact complete_graph_inner_adds m x (List.range n) g v
            (List.mem_range.mpr hv) (fun he => hne he.symm)
      · exact ih _ h2
  exact main (List.range n) (Graph.empty α n) (List.mem_range.mpr hx)

/-- Every adjacency entry of the complete graph is valid: both endpoints
below `n`, no self loops, and the weight is the matrix entry in one of the
two argument orders. -/
theorem complete_graph_adj_sound {α : Type} (n : Nat) (m : Nat → Nat → α)
    (x v : Nat) (w : α) (h : (v, w) ∈ (complete_graph n m).adj x) :
    x < n ∧ v < n ∧ v ≠ x ∧ (w = m x v ∨ w = m v x) := by
  unfold complete_graph at h
  suffices main : ∀ (is : List Nat) (g : Graph α), (∀ y ∈ is, y < n) →
      (∀ v' w', (v', w') ∈ g.adj x →
        x < n ∧ v' < n ∧ v' ≠ x ∧ (w' = m x v' ∨ w' = m v' x)) →
      ∀ v' w', (v', w') ∈ ((is.foldl (fun g i => (List.range n).foldl (fun g j =>
        if i ≠ j then g.add_edge i j (m i j) else g) g) g).adj x) →
      x < n ∧ v' < n ∧ v' ≠ x ∧ (w' = m x v' ∨ w' = m v' x) by
    refine main (List.range n) (Graph.empty α n)
      (fun y hy => List.mem_range.mp hy) ?_ v w h
    intro v' w' h'
    cases h'
  have inner : ∀ (i : Nat), i < n → ∀ (js : List Nat) (g : Graph α),
      (∀ y ∈ js, y < n) →
      (∀ v' w', (v', w') ∈ g.adj x →
        x < n ∧ v' < n ∧ v' ≠ x ∧ (w' = m x v' ∨ w' = m v' x)) →
      ∀ v' w', (v', w') ∈ ((js.foldl (fun g j =>
        if i ≠ j then g.add_edge i j (m i j) else g) g).adj x) →
      x < n ∧ v' < n ∧ v' ≠ x ∧ (w' = m x v' ∨ w' = m v' x) := by
    intro i hi js
    induction js with
    | nil => intro g _ hg v' w' h'; exact hg v' w' h'
    | cons j t ih =>
      intro g hjs hg v' w' h'
      simp only [List.foldl_cons] at h'
      refine ih _ (fun y hy => hjs y (List.mem_cons_of_mem j hy)) ?_ v' w' h'
      intro v2 w2 h2
      by_cases hij : i ≠ j
      · rw [if_pos hij] at h2
        rcases (Graph.mem_add_edge_adj g i j x v2 (m i j) w2).mp h2 with
          h3 | ⟨hx, hv, hw⟩ | ⟨hx, hv, hw⟩
        · exact hg v2 w2 h3
        · refine ⟨?_, ?_, ?_, Or.inl ?_⟩
          · rw [hx]; exact hi
          · rw [hv]; exact hjs j (List.mem_cons_self j t)
          · rw [hx, hv]; exact fun he => hij he.symm
          · rw [hw, hx, hv]
        · refine ⟨?_, ?_, ?_, Or.inr ?_⟩
          · rw [hx]; exact hjs j (List.mem_cons_self j t)
          · rw [hv]; exact hi
          · rw [hx, hv]; exact hij
          · rw [hw, hx, hv]
      · rw [if_neg hij] at h2
        exact hg v2 w2 h2
  intro is
  induction is with
  | nil => intro g _ hg v' w' h'; exact hg v' w' h'
  | cons i t ih =>
    intro g his hg v' w' h'
    simp only [List.foldl_cons] at h'
    refine ih _ (fun y hy => his y (List.mem_cons_of_mem i hy)) ?_ v' w' h'
    exact inner i (his i (List.mem_cons_self i t)) (List.range n) g
      (fun y hy => List.mem_range.mp hy) hg

/-- `complete_graph` has the vertex count it was given. -/
theorem complete_graph_num_vertices {α : Type} (n : Nat) (m : Nat → Nat → α) :
    (complete_graph n m).num_vertices = n := by
  unfold complete_graph
  have inner : ∀ (i : Nat) (js : List Nat) (g : Graph α),
      ((js.foldl (fun g j =>
        if i ≠ j then g.add_edge i j (m i j) else g) g).num_vertices) =
        g.num_vertices := by
    intro i js
    induction js with
    | nil => intro g; rfl
    | cons j t ih =>
      intro g
      simp only [List.foldl_cons]
      rw [ih]
      by_cases hij : i ≠ j
      · rw [if_pos hij]; rfl
      · rw [if_neg hij]
  have outer : ∀ (is : List Nat) (g : Graph α),
      ((is.foldl (fun g i => (List.range n).foldl (fun g j =>
        if i ≠ j then g.add_edge i j (m i j) else g) g) g).num_vertices) =
        g.num_vertices := by
    intro is
    induction is with
    | nil => intro g; rfl
    | cons i t ih =>
      intro g
      simp only [List.foldl_cons]
      rw [ih, inner]
  rw [outer]
  rfl

/-- In the scan accumulator, the candidate and the minimum weight are
`none` together (inner fold). -/
theorem prim_scan_inner_none_iff {α : Type} [LinearOrder α]
    (visited : List Nat) (u : Nat) (l : List (Nat × α))
    (acc : Option (Nat × Nat) × Option α) (h : acc.1 = none ↔ acc.2 = none) :
    ((l.foldl (fun acc vw =>
        if vw.1 ∉ visited ∧ oLT (some vw.2) acc.2 then (some (u, vw.1), some vw.2)
        else acc) acc).1 = none ↔
      (l.foldl (fun acc vw =>
        if vw.1 ∉ visited ∧ oLT (some vw.2) acc.2 then (some (u, vw.1), some vw.2)
        else acc) acc).2 = none) := by
  induction l generalizing acc with
  | nil => exact h
  | cons x t ih =>
    simp only [List.foldl_cons]
    refine ih _ ?_
    by_cases hc : x.1 ∉ visited ∧ oLT (some x.2) acc.2 = true
    · rw [if_pos hc]
      simp
    · rw [if_neg hc]
      exact h

/-- A present candidate survives the rest of the inner scan fold. -/
theorem prim_scan_inner_isSome_mono {α : Type} [LinearOrder α]
    (visited : List Nat) (u : Nat) (l : List (Nat × α))
    (acc : Option (Nat × Nat) × Option α) (h : acc.1.isSome = true) :
    ((l.foldl (fun acc vw =>
        if vw.1 ∉ visited ∧ oLT (some vw.2) acc.2 then (some (u, vw.1), some vw.2)
        else acc) acc).1.isSome = true) := by
  induction l generalizing acc with
  | nil => exact h
  | cons x t ih =>
    simp only [List.foldl_cons]
    refine ih _ ?_
    by_cases hc : x.1 ∉ visited ∧ oLT (some x.2) acc.2 = true
    · rw [if_pos hc]; rfl
    · rw [if_neg hc]; exact h

/-- If the inner scan fold sees an unvisited neighbour, it ends up with a
candidate. -/
theorem prim_scan_inner_complete {α : Type} [LinearOrder α]
    (visited : List Nat) (u : Nat) (l : List (Nat × α))
    (acc : Option (Nat × Nat) × Option α) (h : acc.1 = none ↔ acc.2 = none)
    (v : Nat) (w : α) (hmem : (v, w) ∈ l) (hv : v ∉ visited) :
    ((l.foldl (fun acc vw =>
        if vw.1 ∉ visited ∧ oLT (some vw.2) acc.2 then (some (u, vw.1), some vw.2)
        else acc) acc).1.isSome = true) := by
  induction l generalizing acc with
  | nil => cases hmem
  | cons x t ih =>
    simp only [List.foldl_cons]
    rcases List.mem_cons.mp hmem with heq | hmem2
    · refine prim_scan_inner_isSome_mono visited u t _ ?_
      by_cases hc : x.1 ∉ visited ∧ oLT (some x.2) acc.2 = true
      · rw [if_pos hc]; rfl
      · rw [if_neg hc]
        have hx1 : x.1 ∉ visited := by
          have : x.1 = v := by rw [← heq]
          rw [this]; exact hv
        have hlt : oLT (some x.2) acc.2 = false := by
          cases hob : oLT (some x.2) acc.2
          · rfl
          · exact absurd ⟨hx1, hob⟩ hc
        cases hacc2 : acc.2 with
        | none => rw [hacc2] at hlt; cases hlt
        | some q =>
          have : acc.1 ≠ none := by
            intro hn
            rw [h.mp hn] at hacc2
            cases hacc2
          exact Option.isSome_iff_ne_none.mpr this
    · by_cases hc : x.1 ∉ visited ∧ oLT (some x.2) acc.2 = true
      · rw [if_pos hc]
        exact prim_scan_inner_isSome_mono visited u t _ rfl
      · rw [if_neg hc]
        exact ih _ h hmem2

/-- If some visited vertex has an unvisited neighbour, `prim_scan` returns
a candidate edge. -/
theorem prim_scan_complete {α : Type} [LinearOrder α] (g : Graph α)
    (visited : List Nat) (u v : Nat) (w : α)
    (hu : u ∈ visited) (hadj : (v, w) ∈ g.adj u) (hv : v ∉ visited) :
    ((prim_scan g visited).1.isSome = true) := by
  unfold prim_scan
  have mono : ∀ (vs : List Nat) (acc : Option (Nat × Nat) × Option α),
      acc.1.isSome = true →
      ((vs.foldl (fun acc u => (g.adj u).foldl (fun acc vw =>
        if vw.1 ∉ visited ∧ oLT (some vw.2) acc.2 then (some (u, vw.1), some vw.2)
        else acc) acc) acc).1.isSome = true) := by
    intro vs
    induction vs with
    | nil => intro acc h; exact h
    | cons y t ih =>
      intro acc h
      simp only [List.foldl_cons]
      exact ih _ (prim_scan_inner_isSome_mono visited y (g.adj y) acc h)
  have qinv : ∀ (vs : List Nat) (acc : Option (Nat × Nat) × Option α),
      (acc.1 = none ↔ acc.2 = none) →
      ((vs.foldl (fun acc u => (g.adj u).foldl (fun acc vw =>
        if vw.1 ∉ visited ∧ oLT (some vw.2) acc.2 then (some (u, vw.1), some vw.2)
        else acc) acc) acc).1 = none ↔
       (vs.foldl (fun acc u => (g.adj u).foldl (fun acc vw =>
        if vw.1 ∉ visited ∧ oLT (some vw.2) acc.2 then (some (u, vw.1), some vw.2)
        else acc) acc) acc).2 = none) := by
    intro vs
    induction vs with
    | nil => intro acc h; exact h
    | cons y t ih =>
      intro acc h
      simp only [List.foldl_cons]
      exact ih _ (prim_scan_inner_none_iff visited y (g.adj y) acc h)
  have main : ∀ (vs : List Nat) (acc : Option (Nat × Nat) × Option α),
      (acc.1 = none ↔ acc.2 = none) → u ∈ vs →
      ((vs.foldl (fun acc u => (g.adj u).foldl (fun acc vw =>
        if vw.1 ∉ visited ∧ oLT (some vw.2) acc.2 then (some (u, vw.1), some vw.2)
        else acc) acc) acc).1.isSome = true) := by
    intro vs
    induction vs with
    | nil => intro acc _ h; cases h
    | cons y t ih =>
      intro acc hq hmem
      simp only [List.foldl_cons]
      rcases List.mem_cons.mp hmem with rfl | hmem2
      · exact mono t _ (prim_scan_inner_complete visited u (g.adj u) acc hq v w hadj hv)
      · exact ih _ (prim_scan_inner_none_iff visited y (g.adj y) acc hq) hmem2
  exact main visited (none, none) (by simp) hu

/-- Reachability is monotone under edge-list extension. -/
theorem ReachableE.mono {E F : List (Nat × Nat)} (hsub : ∀ e ∈ E, e ∈ F)
    {a b : Nat} (h : ReachableE E a b) : ReachableE F a b := by
  induction h with
  | refl => exact ReachableE.refl a
  | tail hr hedge ih =>
    refine ReachableE.tail ih ?_
    rcases hedge with h2 | h2
    · exact Or.inl (hsub _ h2)
    · exact Or.inr (hsub _ h2)

/-- A vertex touched by no edge is reachable only from itself. -/
theorem ReachableE.eq_of_untouched {E : List (Nat × Nat)} {z : Nat}
    (hz : ∀ f ∈ E, f.1 ≠ z ∧ f.2 ≠ z) {a b : Nat} (h : ReachableE E a b) :
    b = z → a = z := by
  induction h with
  | refl => exact fun h2 => h2
  | @tail b c hr hedge ih =>
    intro hcz
    rcases hedge with h2 | h2
    · exact absurd hcz (hz _ h2).2
    · exact absurd hcz (hz _ h2).1

/-- Walks may use the pendant edge `(u, z)` of a leaf `z` untouched by `F`
only as a final detour: reachability from `a ≠ z` restricts to `F` (with
target `u` when the walk ends in `z`). -/
theorem ReachableE.elim_leaf {F : List (Nat × Nat)} {u z : Nat}
    (hz : ∀ f ∈ F, f.1 ≠ z ∧ f.2 ≠ z) (huz : u ≠ z) {a b : Nat}
    (h : ReachableE (F ++ [(u, z)]) a b) (ha : a ≠ z) :
    (b ≠ z → ReachableE F a b) ∧ (b = z → ReachableE F a u) := by
  induction h with
  | refl => exact ⟨fun _ => ReachableE.refl a, fun hb => absurd hb ha⟩
  | @tail b c hr hedge ih =>
    constructor
    · intro hcz
      rcases hedge with h2 | h2
      · rcases List.mem_append.mp h2 with hmF | hme
        · have hb : b ≠ z := (hz _ hmF).1
          exact ReachableE.tail (ih.1 hb) (Or.inl hmF)
        · have h3 := List.mem_singleton.mp hme
          have : c = z := congrArg Prod.snd h3
          exact absurd this hcz
      · rcases List.mem_append.mp h2 with hmF | hme
        · have hb : b ≠ z := (hz _ hmF).2
          exact ReachableE.tail (ih.1 hb) (Or.inr hmF)
        · have h3 := List.mem_singleton.mp hme
          have hcu : c = u := congrArg Prod.fst h3
          have hbz : b = z := congrArg Prod.snd h3
          rw [hcu]
          exact ih.2 hbz
    · intro hcz
      rcases hedge with h2 | h2
      · rcases List.mem_append.mp h2 with hmF | hme
        · exact absurd hcz (hz _ hmF).2
        · have hbu : b = u := congrArg Prod.fst (List.mem_singleton.mp hme)
          rw [← hbu]
          exact ih.1 (by rw [hbu]; exact huz)
      · rcases List.mem_append.mp h2 with hmF | hme
        · exact absurd hcz (hz _ hmF).1
        · have h3 := List.mem_singleton.mp hme
          have hcu : c = u := congrArg Prod.fst h3
          exact absurd (hcz ▸ hcu : z = u) (fun he => huz he.symm)

/-- The Prim structural invariants imply acyclicity: if the second
endpoints `0 :: E.map snd` are pairwise distinct and every first endpoint
occurs among the earlier second endpoints (or is `0`), every edge of `E` is
a bridge. -/
theorem forest_acyclic (E : List (Nat × Nat))
    (hnodup : (0 :: E.map Prod.snd).Nodup)
    (hfst : ∀ k (hk : k < E.length),
      (E.get ⟨k, hk⟩).1 ∈ 0 :: (E.take k).map Prod.snd) :
    AcyclicE E := by
  induction E using List.reverseRecOn with
  | nil =>
    intro i hi
    exact absurd hi (by simp)
  | append_singleton F e ih =>
    obtain ⟨eu, ez⟩ := e
    have hmap : (F ++ [(eu, ez)]).map Prod.snd = F.map Prod.snd ++ [ez] := by
      simp
    have hnodup2 : ((0 :: F.map Prod.snd) ++ [ez]).Nodup := by
      rw [List.cons_append, ← hmap]
      exact hnodup
    have hnodupF : (0 :: F.map Prod.snd).Nodup :=
      (List.nodup_append.mp hnodup2).1
    have he2 : ez ∉ 0 :: F.map Prod.snd := by
      intro hmem
      exact (List.nodup_append.mp hnodup2).2.2 hmem (List.mem_singleton.mpr rfl)
    have hlenF : F.length < (F ++ [(eu, ez)]).length := by simp
    have hgetlast : (F ++ [(eu, ez)]).get ⟨F.length, hlenF⟩ = (eu, ez) := by
      have h2 := @List.getElem_append_right _ F [(eu, ez)] F.length
        (le_refl F.length) hlenF
      simp only [Nat.sub_self, List.getElem_cons_zero] at h2
      exact h2
    have he1 : eu ∈ 0 :: F.map Prod.snd := by
      have h2 := hfst F.length hlenF
      rw [hgetlast] at h2
      rwa [List.take_append_of_le_length (le_refl F.length), List.take_length] at h2
    have hfstF : ∀ k (hk : k < F.length),
        (F.get ⟨k, hk⟩).1 ∈ 0 :: (F.take k).map Prod.snd := by
      intro k hk
      have hk2 : k < (F ++ [(eu, ez)]).length := by simp; omega
      have h2 := hfst k hk2
      rw [List.take_append_of_le_length (le_of_lt hk)] at h2
      have hget : (F ++ [(eu, ez)]).get ⟨k, hk2⟩ = F.get ⟨k, hk⟩ :=
        List.getElem_append_left hk
      rwa [hget] at h2
    have hend : ∀ f ∈ F, f.1 ∈ 0 :: F.map Prod.snd ∧ f.2 ∈ 0 :: F.map Prod.snd := by
      intro f hf
      obtain ⟨⟨k, hk⟩, hget⟩ := List.mem_iff_get.mp hf
      constructor
      · have h2 := hfstF k hk
        rw [hget] at h2
        rcases List.mem_cons.mp h2 with h3 | h3
        · exact List.mem_cons.mpr (Or.inl h3)
        · exact List.mem_cons.mpr (Or.inr
            (List.map_subset Prod.snd (List.take_subset k F) h3))
      · exact List.mem_cons.mpr (Or.inr (List.mem_map.mpr ⟨f, hf, rfl⟩))
    have huntouched : ∀ f ∈ F, f.1 ≠ ez ∧ f.2 ≠ ez := by
      intro f hf
      obtain ⟨h1, h2⟩ := hend f hf
      exact ⟨fun hx => he2 (hx ▸ h1), fun hx => he2 (hx ▸ h2)⟩
    have he12 : eu ≠ ez := fun hx => he2 (hx ▸ he1)
    intro i hi
    by_cases hiF : i < F.length
    · have hget : (F ++ [(eu, ez)]).get ⟨i, hi⟩ = F.get ⟨i, hiF⟩ :=
        List.getElem_append_left hiF
      rw [hget, List.eraseIdx_append_of_lt_length hiF]
      intro hreach
      have hzF : ∀ f ∈ F.eraseIdx i, f.1 ≠ ez ∧ f.2 ≠ ez :=
        fun f hf => huntouched f (List.eraseIdx_subset F i hf)
      have hfi := huntouched (F.get ⟨i, hiF⟩) (List.get_mem F i hiF)
      have helim := ReachableE.elim_leaf hzF he12 hreach hfi.1
      exact ih hnodupF hfstF i hiF (helim.1 hfi.2)
    · have hieq : i = F.length := by
        have h2 : i < F.length + 1 := by simpa using hi
        omega
      subst hieq
      rw [hgetlast, List.eraseIdx_append_of_length_le (le_refl F.length)]
      simp only [Nat.sub_self, List.eraseIdx, List.append_nil]
      intro hreach
      exact he12 (ReachableE.eq_of_untouched huntouched hreach rfl)

/-- A duplicate-free list of `n` naturals below `n` contains every natural
below `n`. -/
theorem list_complete_of_nodup (V : List Nat) (n : Nat) (hnd : V.Nodup)
    (hb : ∀ x ∈ V, x < n) (hl : V.length = n) : ∀ v, v < n → v ∈ V := by
  intro v hv
  have hsub : V.toFinset ⊆ (List.range n).toFinset := by
    intro x hx
    rw [List.mem_toFinset] at hx
    rw [List.mem_toFinset, List.mem_range]
    exact hb x hx
  have hcards : (List.range n).toFinset.card ≤ V.toFinset.card := by
    rw [List.toFinset_card_of_nodup hnd, List.toFinset_card_of_nodup (List.nodup_range n)]
    simp [hl]
  have heq := Finset.eq_of_subset_of_card_le hsub hcards
  have : v ∈ (List.range n).toFinset := by
    rw [List.mem_toFinset, List.mem_range]; exact hv
  rw [← heq] at this
  rwa [List.mem_toFinset] at this

/-- Main invariant of the `prim_mst` loop on the complete graph over `n`
vertices: starting from a state where `visited` is `0` followed by the
second endpoints of the accumulated edges (duplicate-free, within range,
first endpoints visited earlier, all reachable from `0`), running the loop
with enough fuel yields an edge list with the same invariants whose visited
list covers all `n` vertices. -/
theorem prim_loop_invariant {α : Type} [LinearOrder α] (n : Nat)
    (m : Nat → Nat → α) :
    ∀ (fuel : Nat) (visited : List Nat) (mst : List (Nat × Nat)),
    visited = 0 :: mst.map Prod.snd →
    visited.Nodup →
    (∀ x ∈ visited, x < n) →
    (∀ k (hk : k < mst.length),
      (mst.get ⟨k, hk⟩).1 ∈ 0 :: (mst.take k).map Prod.snd) →
    (∀ x ∈ visited, ReachableE mst 0 x) →
    n ≤ visited.length + fuel →
    visited.length ≤ n →
    ∃ R, prim_loop (complete_graph n m) fuel visited mst = R ∧
      (0 :: R.map Prod.snd).Nodup ∧
      (∀ x ∈ 0 :: R.map Prod.snd, x < n) ∧
      (∀ k (hk : k < R.length),
        (R.get ⟨k, hk⟩).1 ∈ 0 :: (R.take k).map Prod.snd) ∧
      (∀ x ∈ 0 :: R.map Prod.snd, ReachableE R 0 x) ∧
      (0 :: R.map Prod.snd).length = n := by
  have hnv := complete_graph_num_vertices n m
  intro fuel
  induction fuel with
  | zero =>
    intro visited mst h1 h2 h3 h4 h5 h6 h7
    refine ⟨mst, rfl, ?_, ?_, h4, ?_, ?_⟩
    · rw [← h1]; exact h2
    · rw [← h1]; exact h3
    · rw [← h1]; exact h5
    · rw [← h1]; omega
  | succ fuel ih =>
    intro visited mst h1 h2 h3 h4 h5 h6 h7
    by_cases hlt : visited.length < n
    · have h0mem : 0 ∈ visited := by rw [h1]; exact List.mem_cons_self 0 _
      have h0n : 0 < n := h3 0 h0mem
      have hex : ∃ v, v < n ∧ v ∉ visited := by
        by_contra hno
        push_neg at hno
        have hsub : (List.range n).toFinset ⊆ visited.toFinset := by
          intro x hx
          rw [List.mem_toFinset, List.mem_range] at hx
          rw [List.mem_toFinset]
          exact hno x hx
        have hcard := Finset.card_le_card hsub
        rw [List.toFinset_card_of_nodup (List.nodup_range n),
          List.toFinset_card_of_nodup h2, List.length_range] at hcard
        omega
      obtain ⟨v, hvn, hvnot⟩ := hex
      have hvne : v ≠ 0 := fun hx => hvnot (hx ▸ h0mem)
      have hadj : (v, m 0 v) ∈ (complete_graph n m).adj 0 :=
        complete_graph_adj_covers n m 0 v h0n hvn hvne
      have hsome := prim_scan_complete (complete_graph n m) visited 0 v (m 0 v)
        h0mem hadj hvnot
      obtain ⟨e, hscan⟩ := Option.isSome_iff_exists.mp hsome
      have hsound := prim_scan_sound (complete_graph n m) visited e.1 e.2
        (by rw [hscan])
      obtain ⟨he1mem, he2not, w, hw⟩ := hsound
      have he2n : e.2 < n := (complete_graph_adj_sound n m e.1 e.2 w hw).2.1
      have hstep : prim_loop (complete_graph n m) (fuel + 1) visited mst =
          prim_loop (complete_graph n m) fuel (visited ++ [e.2]) (mst ++ [e]) := by
        simp only [prim_loop]
        rw [hnv, if_pos hlt, hscan]
      have h1' : visited ++ [e.2] = 0 :: (mst ++ [e]).map Prod.snd := by
        rw [h1]
        simp
      have h2' : (visited ++ [e.2]).Nodup := by
        rw [List.nodup_append]
        exact ⟨h2, List.nodup_singleton _,
          fun x hx hx2 => (List.mem_singleton.mp hx2 ▸ he2not) hx⟩
      have h3' : ∀ x ∈ visited ++ [e.2], x < n := by
        intro x hx
        rcases List.mem_append.mp hx with hx | hx
        · exact h3 x hx
        · rw [List.mem_singleton.mp hx]; exact he2n
      have h4' : ∀ k (hk : k < (mst ++ [e]).length),
          ((mst ++ [e]).get ⟨k, hk⟩).1 ∈ 0 :: ((mst ++ [e]).take k).map Prod.snd := by
        intro k hk
        have hk2 : k < mst.length + 1 := by simpa using hk
        by_cases hkm : k < mst.length
        · have hget : (mst ++ [e]).get ⟨k, hk⟩ = mst.get ⟨k, hkm⟩ :=
            List.getElem_append_left hkm
          rw [hget, List.take_append_of_le_length (le_of_lt hkm)]
          exact h4 k hkm
        · have hkeq : k = mst.length := by omega
          subst hkeq
          have hget : (mst ++ [e]).get ⟨mst.length, hk⟩ = e := by
            have h9 := @List.getElem_append_right _ mst [e] mst.length
              (le_refl mst.length) hk
            simp only [Nat.sub_self, List.getElem_cons_zero] at h9
            exact h9
          rw [hget, List.take_append_of_le_length (le_refl mst.length),
            List.take_length, ← h1]
          exact he1mem
      have hsubE : ∀ f ∈ mst, f ∈ mst ++ [e] :=
        fun f hf => List.mem_append.mpr (Or.inl hf)
      have h5' : ∀ x ∈ visited ++ [e.2], ReachableE (mst ++ [e]) 0 x := by
        intro x hx
        rcases List.mem_append.mp hx with hx | hx
        · exact ReachableE.mono hsubE (h5 x hx)
        · rw [List.mem_singleton.mp hx]
          refine ReachableE.tail (ReachableE.mono hsubE (h5 e.1 he1mem)) ?_
          refine Or.inl ?_
          have : (e.1, e.2) = e := rfl
          rw [this]
          exact List.mem_append.mpr (Or.inr (List.mem_singleton.mpr rfl))
      have h6' : n ≤ (visited ++ [e.2]).length + fuel := by
        simp only [List.length_append, List.length_singleton]; omega
      have h7' : (visited ++ [e.2]).length ≤ n := by
        simp only [List.length_append, List.length_singleton]; omega
      obtain ⟨R, hR, hprops⟩ := ih (visited ++ [e.2]) (mst ++ [e])
        h1' h2' h3' h4' h5' h6' h7'
      exact ⟨R, by rw [hstep]; exact hR, hprops⟩
    · refine ⟨mst, ?_, ?_, ?_, h4, ?_, ?_⟩
      · simp only [prim_loop]
        rw [hnv, if_neg hlt]
      · rw [← h1]; exact h2
      · rw [← h1]; exact h3
      · rw [← h1]; exact h5
      · rw [← h1]; omega

/-- C3: on the complete graph over `n ≥ 1` vertices that `plan_route`
builds from a distance matrix, `prim_mst` returns exactly `n - 1` edges,
the returned edge set spans (connects) all `n` vertices, and it is acyclic
(every returned edge is a bridge). -/
theorem prim_mst_spanning_tree {α : Type} [LinearOrder α] (n : Nat)
    (m : Nat → Nat → α) (hn : 1 ≤ n) :
    (prim_mst (complete_graph n m)).length = n - 1 ∧
    (∀ v, v < n → ReachableE (prim_mst (complete_graph n m)) 0 v) ∧
    AcyclicE (prim_mst (complete_graph n m)) := by
  have hnv := complete_graph_num_vertices n m
  obtain ⟨R, hR, hnd, hbd, hfst, hrch, hln⟩ := prim_loop_invariant n m n [0] []
    (by simp) (by simp) (by intro x hx; rw [List.mem_singleton.mp hx]; omega)
    (by intro k hk; simp at hk)
    (by intro x hx; rw [List.mem_singleton.mp hx]; exact ReachableE.refl 0)
    (by simp) (by simp; omega)
  have hmst : prim_mst (complete_graph n m) = R := by
    unfold prim_mst
    rw [hnv]
    exact hR
  rw [hmst]
  have hlen : R.length + 1 = n := by
    simpa using hln
  refine ⟨by omega, ?_, forest_acyclic R hnd hfst⟩
  intro v hv
  have hmem : v ∈ 0 :: R.map Prod.snd := by
    refine list_complete_of_nodup _ n hnd hbd ?_ v hv
    simpa using hlen
  exact hrch v hmem

/-- Witness for `prim_mst_spanning_tree` on the concrete 2-vertex complete
graph with unit weights. -/
theorem prim_mst_spanning_tree_witness :
    (prim_mst (complete_graph 2 (fun _ _ => (1 : ℤ)))).length = 2 - 1 ∧
    (∀ v, v < 2 → ReachableE (prim_mst (complete_graph 2 (fun _ _ => (1 : ℤ)))) 0 v) ∧
    AcyclicE (prim_mst (complete_graph 2 (fun _ _ => (1 : ℤ)))) :=
  prim_mst_spanning_tree 2 (fun _ _ => (1 : ℤ)) (by decide)

/-- Membership in the DFS adjacency map after inserting one edge. -/
theorem dfs_adj_step_mem (adj : Nat → List Nat) (e : Nat × Nat) (u v : Nat) :
    (v ∈ (fun x => if x = e.2 then
        (fun x => if x = e.1 then adj x ++ [e.2] else adj x) x ++ [e.1]
      else (fun x => if x = e.1 then adj x ++ [e.2] else adj x) x) u) ↔
      v ∈ adj u ∨ (u = e.1 ∧ v = e.2) ∨ (u = e.2 ∧ v = e.1) := by
  dsimp only
  by_cases hb : u = e.2
  · by_cases ha : u = e.1
    · rw [if_pos hb, if_pos ha]
      subst hb
      simp [List.mem_append, ha]
    · rw [if_pos hb, if_neg ha]
      subst hb
      simp [List.mem_append, ha]
  · by_cases ha : u = e.1
    · rw [if_neg hb, if_pos ha]
      subst ha
      simp [List.mem_append, hb]
    · rw [if_neg hb, if_neg ha]
      simp [ha, hb]

/-- Membership in the adjacency map `dfs_traversal` builds: `v` is a
neighbour of `u` exactly when some listed edge joins them (either
direction). -/
theorem dfs_adj_mem (mst_edges : List (Nat × Nat)) (u v : Nat) :
    v ∈ dfs_adj mst_edges u ↔ (u, v) ∈ mst_edges ∨ (v, u) ∈ mst_edges := by
  unfold dfs_adj
  suffices h : ∀ (adj0 : Nat → List Nat),
      v ∈ (mst_edges.foldl (fun adj e =>
        let adj1 := fun x => if x = e.1 then adj x ++ [e.2] else adj x
        fun x => if x = e.2 then adj1 x ++ [e.1] else adj1 x) adj0) u ↔
      v ∈ adj0 u ∨ (u, v) ∈ mst_edges ∨ (v, u) ∈ mst_edges by
    rw [h (fun _ => [])]
    simp
  induction mst_edges with
  | nil => intro adj0; simp
  | cons e t ih =>
    intro adj0
    simp only [List.foldl_cons]
    rw [ih]
    rw [dfs_adj_step_mem adj0 e u v]
    simp only [List.mem_cons, Prod.ext_iff]
    tauto

/-- `dfs_visit` only appends: both state components are extended by the
same suffix. -/
theorem dfs_visit_extends (adj : Nat → List Nat) :
    ∀ (fuel : Nat) (u : Nat) (st : List Nat × List Nat),
    ∃ ext, (dfs_visit adj fuel u st).1 = st.1 ++ ext ∧
      (dfs_visit adj fuel u st).2 = st.2 ++ ext := by
  intro fuel
  induction fuel with
  | zero => intro u st; exact ⟨[], by simp [dfs_visit]⟩
  | succ fuel ih =>
    intro u st
    by_cases hu : u ∈ st.1
    · refine ⟨[], ?_⟩
      simp only [dfs_visit, if_pos hu]
      simp
    · have hfold : ∀ (l : List Nat) (s : List Nat × List Nat),
          ∃ ext, (l.foldl (fun st v => dfs_visit adj fuel v st) s).1 = s.1 ++ ext ∧
            (l.foldl (fun st v => dfs_visit adj fuel v st) s).2 = s.2 ++ ext := by
        intro l
        induction l with
        | nil => intro s; exact ⟨[], by simp⟩
        | cons v t iht =>
          intro s
          obtain ⟨e1, h1, h2⟩ := ih v s
          obtain ⟨e2, h3, h4⟩ := iht (dfs_visit adj fuel v s)
          refine ⟨e1 ++ e2, ?_, ?_⟩
          · simp only [List.foldl_cons]
            rw [h3, h1, List.append_assoc]
          · simp only [List.foldl_cons]
            rw [h4, h2, List.append_assoc]
      obtain ⟨ext, h1, h2⟩ := hfold (adj u) (st.1 ++ [u], st.2 ++ [u])
      refine ⟨u :: ext, ?_, ?_⟩
      · simp only [dfs_visit, if_neg hu]
        rw [h1]
        simp
      · simp only [dfs_visit, if_neg hu]
        rw [h2]
        simp

/-- The neighbour fold of `dfs_visit` only appends to both state
components. -/
theorem dfs_fold_extends (adj : Nat → List Nat) (fuel : Nat) :
    ∀ (l : List Nat) (s : List Nat × List Nat),
    ∃ ext, (l.foldl (fun st v => dfs_visit adj fuel v st) s).1 = s.1 ++ ext ∧
      (l.foldl (fun st v => dfs_visit adj fuel v st) s).2 = s.2 ++ ext := by
  intro l
  induction l with
  | nil => intro s; exact ⟨[], by simp⟩
  | cons v t iht =>
    intro s
    obtain ⟨e1, h1, h2⟩ := dfs_visit_extends adj fuel v s
    obtain ⟨e2, h3, h4⟩ := iht (dfs_visit adj fuel v s)
    refine ⟨e1 ++ e2, ?_, ?_⟩
    · simp only [List.foldl_cons]
      rw [h3, h1, List.append_assoc]
    · simp only [List.foldl_cons]
      rw [h4, h2, List.append_assoc]

/-- A duplicate-free list of naturals below `n` has length at most `n`. -/
theorem nodup_bounded_length_le (V : List Nat) (n : Nat) (hnd : V.Nodup)
    (hb : ∀ x ∈ V, x < n) : V.length ≤ n := by
  have hsub : V.toFinset ⊆ (List.range n).toFinset := by
    intro x hx
    rw [List.mem_toFinset] at hx
    rw [List.mem_toFinset, List.mem_range]
    exact hb x hx
  have := Finset.card_le_card hsub
  rwa [List.toFinset_card_of_nodup hnd,
    List.toFinset_card_of_nodup (List.nodup_range n), List.length_range] at this

/-- Core correctness of the bounded DFS visit: with enough fuel, visiting
`u < n` from a duplicate-free in-range state yields a duplicate-free
in-range visited list containing `u` in which every newly visited vertex
has all its neighbours visited. -/
theorem dfs_visit_covers (adj : Nat → List Nat) (n : Nat)
    (hadj : ∀ x, ∀ y ∈ adj x, y < n) :
    ∀ (fuel : Nat) (u : Nat) (st : List Nat × List Nat), u < n →
    st.1.Nodup → (∀ x ∈ st.1, x < n) → n ≤ st.1.length + fuel →
    ((dfs_visit adj fuel u st).1.Nodup ∧
     (∀ x ∈ (dfs_visit adj fuel u st).1, x < n) ∧
     u ∈ (dfs_visit adj fuel u st).1 ∧
     (∀ w, w ∈ (dfs_visit adj fuel u st).1 → w ∉ st.1 →
       ∀ y ∈ adj w, y ∈ (dfs_visit adj fuel u st).1)) := by
  intro fuel
  induction fuel with
  | zero =>
    intro u st hu hnd hb hfuel
    have hlen : st.1.length = n :=
      le_antisymm (nodup_bounded_length_le st.1 n hnd hb) (by omega)
    have humem : u ∈ st.1 := list_complete_of_nodup st.1 n hnd hb hlen u hu
    exact ⟨hnd, hb, humem, fun w hw hnw => absurd hw hnw⟩
  | succ fuel ih =>
    intro u st hu hnd hb hfuel
    by_cases hvis : u ∈ st.1
    · simp only [dfs_visit, if_pos hvis]
      exact ⟨hnd, hb, hvis, fun w hw hnw => absurd hw hnw⟩
    · have hnd1 : (st.1 ++ [u]).Nodup := by
        rw [List.nodup_append]
        exact ⟨hnd, List.nodup_singleton _,
          fun x hx hx2 => (List.mem_singleton.mp hx2 ▸ hvis) hx⟩
      have hb1 : ∀ x ∈ st.1 ++ [u], x < n := by
        intro x hx
        rcases List.mem_append.mp hx with hx | hx
        · exact hb x hx
        · rw [List.mem_singleton.mp hx]; exact hu
      have hfold : ∀ (l : List Nat), (∀ y ∈ l, y < n) →
          ∀ (s : List Nat × List Nat), s.1.Nodup → (∀ x ∈ s.1, x < n) →
          n ≤ s.1.length + fuel →
          ((l.foldl (fun st v => dfs_visit adj fuel v st) s).1.Nodup ∧
           (∀ x ∈ (l.foldl (fun st v => dfs_visit adj fuel v st) s).1, x < n) ∧
           (∀ y ∈ l, y ∈ (l.foldl (fun st v => dfs_visit adj fuel v st) s).1) ∧
           (∀ w, w ∈ (l.foldl (fun st v => dfs_visit adj fuel v st) s).1 →
             w ∉ s.1 → ∀ y ∈ adj w,
             y ∈ (l.foldl (fun st v => dfs_visit adj fuel v st) s).1)) := by
        intro l
        induction l with
        | nil =>
          intro _ s hsnd hsb _
          exact ⟨hsnd, hsb, fun y hy => absurd hy (List.not_mem_nil y),
            fun w hw hnw => absurd hw hnw⟩
        | cons v t iht =>
          intro hl s hsnd hsb hsfuel
          have hvn : v < n := hl v (List.mem_cons_self v t)
          obtain ⟨snd', sb', hvmem, hcl1⟩ := ih v s hvn hsnd hsb hsfuel
          obtain ⟨e1, he1, _⟩ := dfs_visit_extends adj fuel v s
          have hsfuel' : n ≤ (dfs_visit adj fuel v s).1.length + fuel := by
            rw [he1]
            simp only [List.length_append]
            omega
          have hlt : ∀ y ∈ t, y < n := fun y hy => hl y (List.mem_cons_of_mem v hy)
          obtain ⟨rnd, rb, hts, hcl2⟩ := iht hlt (dfs_visit adj fuel v s) snd' sb' hsfuel'
          obtain ⟨e2, he2, _⟩ := dfs_fold_extends adj fuel t (dfs_visit adj fuel v s)
          simp only [List.foldl_cons]
          refine ⟨rnd, rb, ?_, ?_⟩
          · intro y hy
            rcases List.mem_cons.mp hy with rfl | hy2
            · rw [he2]
              exact List.mem_append.mpr (Or.inl hvmem)
            · exact hts y hy2
          · intro w hw hnw y hymem
            by_cases hws : w ∈ (dfs_visit adj fuel v s).1
            · have := hcl1 w hws hnw y hymem
              rw [he2]
              exact List.mem_append.mpr (Or.inl this)
            · exact hcl2 w hw hws y hymem
      have hb1u : ∀ y ∈ adj u, y < n := hadj u
      have hfuel1 : n ≤ (st.1 ++ [u]).length + fuel := by
        simp only [List.length_append, List.length_singleton]
        omega
      have hmain := hfold (adj u) hb1u (st.1 ++ [u], st.2 ++ [u]) hnd1 hb1 hfuel1
      obtain ⟨rnd, rb, hadjmem, hcl⟩ := hmain
      obtain ⟨ext, hext, _⟩ :=
        dfs_fold_extends adj fuel (adj u) (st.1 ++ [u], st.2 ++ [u])
      simp only [dfs_visit, if_neg hvis]
      refine ⟨rnd, rb, ?_, ?_⟩
      · rw [hext]
        exact List.mem_append.mpr (Or.inl (List.mem_append.mpr
          (Or.inr (List.mem_singleton.mpr rfl))))
      · intro w hw hnw y hymem
        by_cases hwu : w = u
        · exact hadjmem y (hwu ▸ hymem)
        · refine hcl w hw ?_ y hymem
          intro hmem
          rcases List.mem_append.mp hmem with h2 | h2
          · exact hnw h2
          · exact hwu (List.mem_singleton.mp h2)

/-- C2: on a tree edge list over vertices `0 .. N-1` (where
`N = len(tree_edges) + 1`, every endpoint in range, and the edges connect
`start` to every vertex), `dfs_traversal(tree_edges, start)` returns a
sequence of length `N` that is a permutation of `0 .. N-1` and starts with
`start`. -/
theorem dfs_traversal_perm (mst_edges : List (Nat × Nat)) (start : Nat)
    (hstart : start < mst_edges.length + 1)
    (hbound : ∀ e ∈ mst_edges,
      e.1 < mst_edges.length + 1 ∧ e.2 < mst_edges.length + 1)
    (hconn : ∀ v, v < mst_edges.length + 1 → ReachableE mst_edges start v) :
    (dfs_traversal mst_edges start).length = mst_edges.length + 1 ∧
    (dfs_traversal mst_edges start).Perm (List.range (mst_edges.length + 1)) ∧
    (dfs_traversal mst_edges start).head? = some start := by
  set n := mst_edges.length + 1 with hn
  set adj := dfs_adj mst_edges with hadjdef
  have hadj : ∀ x, ∀ y ∈ adj x, y < n := by
    intro x y hy
    rcases (dfs_adj_mem mst_edges x y).mp hy with h2 | h2
    · exact (hbound _ h2).2
    · exact (hbound _ h2).1
  have hcov := dfs_visit_covers adj n hadj (n + 1) start ([], []) hstart
    (by simp) (by simp) (by simp)
  obtain ⟨hnd, hbnd, hstartmem, hclosed⟩ := hcov
  obtain ⟨ext, hext1, hext2⟩ := dfs_visit_extends adj (n + 1) start ([], [])
  have heq12 : (dfs_visit adj (n + 1) start ([], [])).1 =
      (dfs_visit adj (n + 1) start ([], [])).2 := by
    rw [hext1, hext2]
  have hreach_in : ∀ a b, ReachableE mst_edges a b →
      a ∈ (dfs_visit adj (n + 1) start ([], [])).1 →
      b ∈ (dfs_visit adj (n + 1) start ([], [])).1 := by
    intro a b hr
    induction hr with
    | refl => exact fun h => h
    | @tail b c hr hedge ihr =>
      intro ha
      have hbmem := ihr ha
      have hcadj : c ∈ adj b := by
        rw [hadjdef, dfs_adj_mem]
        exact hedge
      exact hclosed b hbmem (List.not_mem_nil b) c hcadj
  have hall : ∀ v, v < n → v ∈ (dfs_visit adj (n + 1) start ([], [])).1 := by
    intro v hv
    exact hreach_in start v (hconn v hv) hstartmem
  have hperm : (dfs_visit adj (n + 1) start ([], [])).1.Perm (List.range n) := by
    refine (List.perm_ext_iff_of_nodup hnd (List.nodup_range n)).mpr ?_
    intro a
    rw [List.mem_range]
    exact ⟨fun h => hbnd a h, fun h => hall a h⟩
  have htrav : dfs_traversal mst_edges start =
      (dfs_visit adj (n + 1) start ([], [])).2 := by
    unfold dfs_traversal
    rw [hadjdef, hn]
  have hvisit_succ : ∀ (fuel u : Nat) (st : List Nat × List Nat), u ∉ st.1 →
      dfs_visit adj (fuel + 1) u st =
        (adj u).foldl (fun st v => dfs_visit adj fuel v st)
          (st.1 ++ [u], st.2 ++ [u]) := by
    intro fuel u st h
    simp only [dfs_visit, if_neg h]
  have hhead : (dfs_visit adj (n + 1) start ([], [])).2.head? = some start := by
    have hvis : start ∉ (([], []) : List Nat × List Nat).1 := List.not_mem_nil start
    obtain ⟨ext2, _, hf2⟩ :=
      dfs_fold_extends adj n (adj start) (([] : List Nat) ++ [start], ([] : List Nat) ++ [start])
    rw [hvisit_succ n start ([], []) hvis]
    rw [hf2]
    simp
  refine ⟨?_, ?_, ?_⟩
  · rw [htrav, ← heq12]
    rw [hperm.length_eq, List.length_range]
  · rw [htrav, ← heq12]
    exact hperm
  · rw [htrav]
    exact hhead

/-- Witness for `dfs_traversal_perm` on the single-edge tree `0 — 1`. -/
theorem dfs_traversal_perm_witness :
    (dfs_traversal [(0, 1)] 0).length = [(0, 1)].length + 1 ∧
    (dfs_traversal [(0, 1)] 0).Perm (List.range ([(0, 1)].length + 1)) ∧
    (dfs_traversal [(0, 1)] 0).head? = some 0 :=
  dfs_traversal_perm [(0, 1)] 0 (by decide) (by decide) (by
    intro v hv
    have hv2 : v < 2 := by simpa using hv
    interval_cases v
    · exact ReachableE.refl 0
    · exact ReachableE.tail (ReachableE.refl 0)
        (Or.inl (List.mem_singleton.mpr rfl)))

/-- If no neighbour relaxation can improve (every candidate `alt` fails the
strict comparison), `dijkstra_relax` leaves the state unchanged. -/
theorem dijkstra_relax_skip {α : Type} [LinearOrder α] [Add α] (u : Nat)
    (l : List (Nat × α)) (vis : Finset Nat) (dist : Nat → Option α)
    (prev : Nat → Option Nat)
    (h : ∀ vw ∈ l, vw.1 ∉ vis →
      oLT (oAddW (dist u) vw.2) (dist vw.1) = false) :
    dijkstra_relax u l vis (dist, prev) = (dist, prev) := by
  induction l with
  | nil => rfl
  | cons vw t ih =>
    have hrec : dijkstra_relax u (vw :: t) vis (dist, prev) =
        dijkstra_relax u t vis (dist, prev) := by
      simp only [dijkstra_relax, List.foldl_cons]
      by_cases hv : vw.1 ∉ vis
      · rw [if_pos hv, h vw (List.mem_cons_self vw t) hv]
        simp
      · rw [if_neg hv]
    rw [hrec]
    exact ih (fun vw2 h2 => h vw2 (List.mem_cons_of_mem vw h2))

/-- The first relaxation round of Dijkstra from `s`: every processed
neighbour entry `(v, m s v)` with `v ≠ s` ends at tentative distance
`0 + m s v`; the source keeps distance `0` and untouched cells keep their
initial value. -/
theorem dijkstra_relax_first {α : Type} [LinearOrder α] [Add α] [Zero α]
    (n : Nat) (m : Nat → Nat → α) (s : Nat) :
    ∀ (l : List (Nat × α)), (∀ vw ∈ l, vw.1 < n ∧ vw.1 ≠ s ∧ vw.2 = m s vw.1) →
    ∀ (dist : Nat → Option α) (prev : Nat → Option Nat),
    dist s = some 0 →
    (∀ x, dist x = (if x = s then some 0 else none) ∨
      (x < n ∧ x ≠ s ∧ dist x = some (0 + m s x))) →
    ((dijkstra_relax s l (insert s ∅) (dist, prev)).1 s = some 0) ∧
    (∀ x, (dijkstra_relax s l (insert s ∅) (dist, prev)).1 x =
        (if x = s then some 0 else none) ∨
      (x < n ∧ x ≠ s ∧
        (dijkstra_relax s l (insert s ∅) (dist, prev)).1 x = some (0 + m s x))) ∧
    (∀ x, dist x = some (0 + m s x) →
      (dijkstra_relax s l (insert s ∅) (dist, prev)).1 x = some (0 + m s x)) ∧
    (∀ vw ∈ l,
      (dijkstra_relax s l (insert s ∅) (dist, prev)).1 vw.1 = some (0 + m s vw.1)) := by
  intro l
  induction l with
  | nil =>
    intro _ dist prev hs hinv
    exact ⟨hs, hinv, fun x hx => hx, fun vw hvw => absurd hvw (List.not_mem_nil vw)⟩
  | cons vw t ih =>
    intro hl dist prev hs hinv
    obtain ⟨hv1, hvs, hvw2⟩ := hl vw (List.mem_cons_self vw t)
    have hnvis : vw.1 ∉ insert s (∅ : Finset Nat) := by
      simp [hvs]
    -- the one step of the fold
    have halt : oAddW (dist s) vw.2 = some (0 + m s vw.1) := by
      rw [hs, hvw2]
      rfl
    by_cases hupd : oLT (oAddW (dist s) vw.2) (dist vw.1) = true
    · -- the entry improves: the cell is written with the target value
      have hrec : dijkstra_relax s (vw :: t) (insert s ∅) (dist, prev) =
          dijkstra_relax s t (insert s ∅)
            ((fun x => if x = vw.1 then oAddW (dist s) vw.2 else dist x),
             (fun x => if x = vw.1 then some s else prev x)) := by
        simp only [dijkstra_relax, List.foldl_cons]
        rw [if_pos hnvis, if_pos hupd]
      set dist2 : Nat → Option α :=
        fun x => if x = vw.1 then oAddW (dist s) vw.2 else dist x with hdist2
      have hs2 : dist2 s = some 0 := by
        rw [hdist2]
        dsimp only
        rw [if_neg (fun hx => hvs hx.symm)]
        exact hs
      have hinv2 : ∀ x, dist2 x = (if x = s then some 0 else none) ∨
          (x < n ∧ x ≠ s ∧ dist2 x = some (0 + m s x)) := by
        intro x
        rw [hdist2]
        dsimp only
        by_cases hx : x = vw.1
        · rw [if_pos hx, hx, halt]
          exact Or.inr ⟨hv1, hvs, rfl⟩
        · rw [if_neg hx]
          exact hinv x
      obtain ⟨c1, c2, c3, c4⟩ := ih
        (fun vw2 h2 => hl vw2 (List.mem_cons_of_mem vw h2)) dist2
        (fun x => if x = vw.1 then some s else prev x) hs2 hinv2
      rw [hrec]
      refine ⟨c1, c2, ?_, ?_⟩
      · intro x hx
        refine c3 x ?_
        rw [hdist2]
        dsimp only
        by_cases hxv : x = vw.1
        · rw [if_pos hxv, halt, hxv]
        · rw [if_neg hxv]
          exact hx
      · intro vw2 hvw2mem
        rcases List.mem_cons.mp hvw2mem with heq | hmem2
        · rw [heq]
          refine c3 vw.1 ?_
          rw [hdist2]
          dsimp only
          rw [if_pos rfl, halt]
        · exact c4 vw2 hmem2
    · -- no improvement: the cell already holds the target value
      have hnolt : oLT (oAddW (dist s) vw.2) (dist vw.1) = false :=
        Bool.eq_false_iff.mpr hupd
      have hrec : dijkstra_relax s (vw :: t) (insert s ∅) (dist, prev) =
          dijkstra_relax s t (insert s ∅) (dist, prev) := by
        simp only [dijkstra_relax, List.foldl_cons]
        rw [if_pos hnvis, hnolt]
        simp
      have htcell : dist vw.1 = some (0 + m s vw.1) := by
        rcases hinv vw.1 with h2 | ⟨_, _, h2⟩
        · rw [if_neg hvs] at h2
          rw [halt] at hnolt
          rw [h2] at hnolt
          cases hnolt
        · exact h2
      obtain ⟨c1, c2, c3, c4⟩ := ih
        (fun vw2 h2 => hl vw2 (List.mem_cons_of_mem vw h2)) dist prev hs hinv
      rw [hrec]
      refine ⟨c1, c2, c3, ?_⟩
      intro vw2 hvw2mem
      rcases List.mem_cons.mp hvw2mem with heq | hmem2
      · rw [heq]
        exact c3 vw.1 htcell
      · exact c4 vw2 hmem2

/-- Once the tentative distances equal the direct matrix row of the source
(under symmetry and the triangle inequality), no later relaxation changes
them: the main Dijkstra loop preserves them exactly. -/
theorem dijkstra_loop_preserves {α : Type} [LinearOrder α] [AddZeroClass α]
    (n : Nat) (m : Nat → Nat → α)
    (hsym : ∀ i, i < n → ∀ j, j < n → m i j = m j i)
    (htri : ∀ i, i < n → ∀ j, j < n → ∀ k, k < n → m i j ≤ m i k + m k j)
    (s e : Nat) (hs : s < n) :
    ∀ (fuel : Nat) (dist : Nat → Option α) (prev : Nat → Option Nat)
      (vis : Finset Nat),
    (∀ x, dist x = if x < n then some (m s x) else none) →
    (∀ x, (dijkstra_loop (complete_graph n m) e fuel dist prev vis).1 x =
      if x < n then some (m s x) else none) := by
  intro fuel
  induction fuel with
  | zero => intro dist prev vis hinv; exact hinv
  | succ fuel ih =>
    intro dist prev vis hinv
    simp only [dijkstra_loop]
    by_cases hcard : vis.card < (complete_graph n m).num_vertices
    · rw [if_pos hcard]
      cases hsel : (dijkstra_select (complete_graph n m).num_vertices dist vis).1 with
      | none => exact hinv
      | some u =>
        dsimp only
        by_cases hue : u = e
        · rw [if_pos hue]
          exact hinv
        · rw [if_neg hue]
          have hskip : dijkstra_relax u ((complete_graph n m).adj u)
              (insert u vis) (dist, prev) = (dist, prev) := by
            refine dijkstra_relax_skip u _ _ dist prev ?_
            intro vw hvw _
            obtain ⟨hun, hvn, hvne, hw⟩ :=
              complete_graph_adj_sound n m u vw.1 vw.2 hvw
            have hw2 : vw.2 = m u vw.1 := by
              rcases hw with h2 | h2
              · exact h2
              · rw [h2]
                exact hsym vw.1 hvn u hun
            rw [hinv u, hinv vw.1, if_pos hun, if_pos hvn, hw2]
            have hle : m s vw.1 ≤ m s u + m u vw.1 :=
              htri s hs vw.1 hvn u hun
            simp only [oAddW, oLT]
            exact decide_eq_false (not_lt.mpr hle)
          rw [hskip]
          exact ih dist prev (insert u vis) hinv
    · rw [if_neg hcard]
      exact hinv

/-- C1 (amended): on the complete graph built from a symmetric,
zero-diagonal matrix satisfying the triangle inequality, Dijkstra's
returned distance for any pair `(s, e)` equals the direct matrix entry
`m s e` — the Dijkstra-per-segment cost accumulator is result-equivalent
to a direct matrix lookup. -/
theorem dijkstra_complete_direct_lookup_of_triangle {α : Type} [LinearOrder α]
    [AddZeroClass α] (n : Nat) (m : Nat → Nat → α)
    (hdiag : ∀ i, i < n → m i i = 0)
    (hsym : ∀ i, i < n → ∀ j, j < n → m i j = m j i)
    (htri : ∀ i, i < n → ∀ j, j < n → ∀ k, k < n → m i j ≤ m i k + m k j)
    (s e : Nat) (hs : s < n) (he : e < n) :
    (dijkstra (complete_graph n m) s e).2 = some (m s e) := by
  have hnv := complete_graph_num_vertices n m
  have hsel := dijkstra_select_init (α := α) n s hs
  obtain ⟨f, hf⟩ : ∃ f, n = f + 1 := ⟨n - 1, by omega⟩
  unfold dijkstra
  rw [hnv, hf]
  simp only [dijkstra_loop]
  rw [← hf, if_pos (by rw [Finset.card_empty, hnv]; omega)]
  rw [← hnv] at hsel
  rw [hsel]
  dsimp only
  by_cases hse : s = e
  · rw [if_pos hse]
    dsimp only
    rw [if_pos hse.symm, ← hse, hdiag s hs]
  · rw [if_neg hse]
    have hadjprop : ∀ vw ∈ (complete_graph n m).adj s,
        vw.1 < n ∧ vw.1 ≠ s ∧ vw.2 = m s vw.1 := by
      intro vw hvw
      obtain ⟨hsn, hvn, hvne, hw⟩ := complete_graph_adj_sound n m s vw.1 vw.2 hvw
      refine ⟨hvn, hvne, ?_⟩
      rcases hw with h2 | h2
      · exact h2
      · rw [h2]
        exact hsym vw.1 hvn s hsn
    obtain ⟨c1, c2, c3, c4⟩ := dijkstra_relax_first n m s
      ((complete_graph n m).adj s) hadjprop
      (fun x => if x = s then some 0 else none) (fun _ => none)
      (by simp) (fun x => Or.inl rfl)
    have hD : ∀ x,
        (dijkstra_relax s ((complete_graph n m).adj s) (insert s ∅)
          (fun x => if x = s then some 0 else none, fun _ => none)).1 x =
        if x < n then some (m s x) else none := by
      intro x
      by_cases hxn : x < n
      · rw [if_pos hxn]
        by_cases hxs : x = s
        · rw [hxs, c1, hdiag s hs]
        · have hcov : (x, m s x) ∈ (complete_graph n m).adj s :=
            complete_graph_adj_covers n m s x hs hxn hxs
          have := c4 (x, m s x) hcov
          rw [this, zero_add]
      · rw [if_neg hxn]
        rcases c2 x with h2 | ⟨hxl, _, _⟩
        · rw [h2, if_neg (fun hx => hxn (by rw [hx]; exact hs))]
        · exact absurd hxl hxn
    have hloop := dijkstra_loop_preserves n m hsym htri s e hs f
      (dijkstra_relax s ((complete_graph n m).adj s) (insert s ∅)
        (fun x => if x = s then some 0 else none, fun _ => none)).1
      (dijkstra_relax s ((complete_graph n m).adj s) (insert s ∅)
        (fun x => if x = s then some 0 else none, fun _ => none)).2
      (insert s ∅) hD
    rw [hloop e, if_pos he]

/-- Witness for `dijkstra_complete_direct_lookup_of_triangle` on the
2-vertex matrix with zero diagonal and unit off-diagonal entries. -/
theorem dijkstra_complete_direct_lookup_witness :
    (dijkstra (complete_graph 2
      (fun i j => if i = j then (0 : ℤ) else 1)) 0 1).2 =
      some ((fun i j => if i = j then (0 : ℤ) else 1) 0 1) :=
  dijkstra_complete_direct_lookup_of_triangle 2
    (fun i j => if i = j then (0 : ℤ) else 1)
    (by decide) (by decide) (by decide) 0 1 (by decide) (by decide)

/-- C7 counterexample: the two in-range coordinate pairs `(90, 0)` and
`(90, 50)` are distinct, yet their haversine distance is `0` (both denote
the north pole: `cos(90°) = 0` kills the longitude term and the latitudes
agree).  So "zero iff the points are equal" fails in the only-if
direction. -/
theorem haversine_zero_at_distinct_points :
    haversine_distance 90 0 90 50 = 0 ∧
    ((90 : ℝ), (0 : ℝ)) ≠ ((90 : ℝ), (50 : ℝ)) ∧
    (-90 ≤ (90 : ℝ) ∧ (90 : ℝ) ≤ 90 ∧
     -180 ≤ (0 : ℝ) ∧ (0 : ℝ) ≤ 180 ∧ -180 ≤ (50 : ℝ) ∧ (50 : ℝ) ≤ 180) := by
  refine ⟨?_, by norm_num [Prod.ext_iff], by norm_num⟩
  have h90 : radians 90 = Real.pi / 2 := by simp only [radians]; ring
  have h0 : radians 0 = 0 := by simp [radians]
  simp only [haversine_distance, h90, h0, Real.cos_pi_div_two, sub_self, zero_mul,
    zero_div, Real.sin_zero, ne_eq, OfNat.ofNat_ne_zero, not_false_eq_true,
    zero_pow, zero_add, Real.sqrt_zero, Real.arcsin_zero, mul_zero]

/-- C7 (amended): the haversine distance is symmetric for all point pairs,
and it is zero whenever the two points are equal; the converse (zero only
if equal) fails, see `haversine_zero_at_distinct_points`. -/
theorem haversine_symm_and_zero_of_eq :
    (∀ lat1 lon1 lat2 lon2 : ℝ, haversine_distance lat1 lon1 lat2 lon2 =
      haversine_distance lat2 lon2 lat1 lon1) ∧
    (∀ lat lon : ℝ, haversine_distance lat lon lat lon = 0) := by
  constructor
  · intro lat1 lon1 lat2 lon2
    have key : ∀ x y : ℝ, Real.sin (radians (y - x) / 2) ^ 2 =
        Real.sin (radians (x - y) / 2) ^ 2 := by
      intro x y
      have h : radians (x - y) / 2 = -(radians (y - x) / 2) := by
        simp only [radians]; ring
      rw [h, Real.sin_neg]
      ring
    simp only [haversine_distance]
    rw [key lat1 lat2, key lon1 lon2,
      mul_comm (Real.cos (radians lat1)) (Real.cos (radians lat2))]
  · intro lat lon
    simp only [haversine_distance, radians, sub_self, zero_mul, zero_div,
      Real.sin_zero, ne_eq, OfNat.ofNat_ne_zero, not_false_eq_true, zero_pow,
      mul_zero, add_zero, Real.sqrt_zero, Real.arcsin_zero]

/-- Reading a list after `set`: the written value inside bounds, the old
value (or default) elsewhere. -/
theorem getD_set_ite {α : Type} (l : List α) (i k : Nat) (x d : α) :
    (l.set i x).getD k d = if i = k ∧ i < l.length then x else l.getD k d := by
  rw [List.getD_eq_getElem?_getD, List.getElem?_set, List.getD_eq_getElem?_getD]
  by_cases h1 : i = k
  · subst h1
    by_cases h2 : i < l.length
    · simp [h2]
    · have hnone : l[i]? = none := List.getElem?_eq_none (by omega)
      simp [h2, hnone]
  · simp [h1]

/-- Effect of the double cell write performed by `build_distance_matrix`
for the pair `(i, j)`: both mirror cells hold the written value, all other
cells are unchanged, and the `n × n` shape is preserved. -/
theorem mread_write {α : Type} [Zero α] (M : List (List α)) (n i j : Nat)
    (x : α) (hlen : M.length = n)
    (hrows : ∀ k, k < n → (M.getD k []).length = n)
    (hi : i < n) (hj : j < n) (hij : i ≠ j) :
    (((M.set i ((M.getD i []).set j x)).set j
        (((M.set i ((M.getD i []).set j x)).getD j []).set i x)).length = n) ∧
    (∀ k, k < n →
      ((((M.set i ((M.getD i []).set j x)).set j
        (((M.set i ((M.getD i []).set j x)).getD j []).set i x)).getD k [])).length = n) ∧
    (∀ a b, mread ((M.set i ((M.getD i []).set j x)).set j
        (((M.set i ((M.getD i []).set j x)).getD j []).set i x)) a b =
      if (a = i ∧ b = j) ∨ (a = j ∧ b = i) then x else mread M a b) := by
  have hM1row : ∀ k, (M.set i ((M.getD i []).set j x)).getD k [] =
      if i = k then (M.getD i []).set j x else M.getD k [] := by
    intro k
    rw [getD_set_ite]
    by_cases h1 : i = k
    · rw [if_pos ⟨h1, by omega⟩, if_pos h1]
    · rw [if_neg (fun h => h1 h.1), if_neg h1]
  have hM2row : ∀ k, ((M.set i ((M.getD i []).set j x)).set j
      (((M.set i ((M.getD i []).set j x)).getD j []).set i x)).getD k [] =
      if j = k then (M.getD j []).set i x
      else if i = k then (M.getD i []).set j x else M.getD k [] := by
    intro k
    rw [getD_set_ite, hM1row j, if_neg (fun h => hij h)]
    have hlen1 : (M.set i ((M.getD i []).set j x)).length = n := by
      rw [List.length_set]; exact hlen
    by_cases h1 : j = k
    · rw [if_pos ⟨h1, by omega⟩, if_pos h1]
    · rw [if_neg (fun h => h1 h.1), if_neg h1]
      exact hM1row k
  refine ⟨?_, ?_, ?_⟩
  · rw [List.length_set, List.length_set]; exact hlen
  · intro k hk
    rw [hM2row k]
    by_cases h1 : j = k
    · rw [if_pos h1, List.length_set]
      exact hrows j hj
    · rw [if_neg h1]
      by_cases h2 : i = k
      · rw [if_pos h2, List.length_set]
        exact hrows i hi
      · rw [if_neg h2]
        exact hrows k hk
  · intro a b
    unfold mread
    rw [hM2row a]
    by_cases ha : j = a
    · rw [if_pos ha, getD_set_ite]
      have hrow : (M.getD j []).length = n := hrows j hj
      by_cases hb : i = b
      · rw [if_pos ⟨hb, by omega⟩,
          if_pos (Or.inr ⟨ha.symm, hb.symm⟩)]
      · rw [if_neg (fun h => hb h.1),
          if_neg (by
            rintro (⟨h2, h3⟩ | ⟨h2, h3⟩)
            · exact hij (by omega)
            · exact hb h3.symm), ← ha]
    · rw [if_neg ha]
      by_cases ha2 : i = a
      · rw [if_pos ha2, getD_set_ite]
        have hrow : (M.getD i []).length = n := hrows i hi
        by_cases hb : j = b
        · rw [if_pos ⟨hb, by omega⟩, if_pos (Or.inl ⟨ha2.symm, hb.symm⟩)]
        · rw [if_neg (fun h => hb h.1),
            if_neg (by
              rintro (⟨h2, h3⟩ | ⟨h2, h3⟩)
              · exact hb h3.symm
              · exact ha h2.symm), ← ha2]
      · rw [if_neg ha2,
          if_neg (by
            rintro (⟨h2, h3⟩ | ⟨h2, h3⟩)
            · exact ha2 h2.symm
            · exact ha h2.symm)]

/-- Inner pair loop of `build_distance_matrix` for a fixed row `i`: after
folding over column indices `js` (all in `(i, n)`), the cells `(i, j)` and
`(j, i)` for `j ∈ js` hold the provider value `f j`, everything else is
unchanged, and the `n × n` shape is preserved. -/
theorem matrix_row_fold_spec {α : Type} [Zero α] (n i : Nat) (f : Nat → α)
    (hi : i < n) :
    ∀ (js : List Nat), (∀ j ∈ js, i < j ∧ j < n) →
    ∀ (M : List (List α)), M.length = n →
    (∀ k, k < n → (M.getD k []).length = n) →
    ((js.foldl (fun matrix j =>
        (matrix.set i ((matrix.getD i []).set j (f j))).set j
          (((matrix.set i ((matrix.getD i []).set j (f j))).getD j []).set i (f j)))
        M).length = n) ∧
    (∀ k, k < n → (((js.foldl (fun matrix j =>
        (matrix.set i ((matrix.getD i []).set j (f j))).set j
          (((matrix.set i ((matrix.getD i []).set j (f j))).getD j []).set i (f j)))
        M).getD k [])).length = n) ∧
    (∀ a b, mread (js.foldl (fun matrix j =>
        (matrix.set i ((matrix.getD i []).set j (f j))).set j
          (((matrix.set i ((matrix.getD i []).set j (f j))).getD j []).set i (f j)))
        M) a b =
      if a = i ∧ b ∈ js then f b
      else if b = i ∧ a ∈ js then f a
      else mread M a b) := by
  intro js
  induction js with
  | nil =>
    intro _ M hMl hMr
    refine ⟨hMl, hMr, ?_⟩
    intro a b
    simp
  | cons j t ih =>
    intro hjs M hMl hMr
    obtain ⟨hij, hjn⟩ := hjs j (List.mem_cons_self j t)
    have hit : i ∉ t := fun h => absurd (hjs i (List.mem_cons_of_mem j h)).1 (lt_irrefl i)
    obtain ⟨hWl, hWr, hWspec⟩ :=
      mread_write M n i j (f j) hMl hMr hi hjn (by omega)
    obtain ⟨hFl, hFr, hFspec⟩ :=
      ih (fun j2 h2 => hjs j2 (List.mem_cons_of_mem j h2)) _ hWl hWr
    simp only [List.foldl_cons]
    refine ⟨hFl, hFr, ?_⟩
    intro a b
    rw [hFspec a b, hWspec a b]
    clear hFspec hWspec hFl hFr hWl hWr ih hMr hMl hjs
    generalize mread M a b = z
    clear M
    by_cases hai : a = i <;> by_cases hbi : b = i <;> by_cases haj : a = j <;>
      by_cases hbj : b = j <;> by_cases hat : a ∈ t <;> by_cases hbt : b ∈ t <;>
      simp_all [List.mem_cons]

/-- Outer loop of `build_distance_matrix`: after folding the pair loop over
rows `is` (all below `n`), the cell `(a, b)` holds the provider value
`g (min a b) (max a b)` whenever the unordered pair was processed
(`min a b ∈ is`, both in range, off-diagonal) and is unchanged otherwise;
the `n × n` shape is preserved. -/
theorem matrix_fold_spec {α : Type} [Zero α] (n : Nat) (g : Nat → Nat → α) :
    ∀ (is : List Nat), (∀ i ∈ is, i < n) →
    ∀ (M : List (List α)), M.length = n →
    (∀ k, k < n → (M.getD k []).length = n) →
    ((is.foldl (fun matrix i =>
        (List.range' (i + 1) (n - (i + 1))).foldl (fun matrix j =>
          (matrix.set i ((matrix.getD i []).set j (g i j))).set j
            (((matrix.set i ((matrix.getD i []).set j (g i j))).getD j []).set i
              (g i j))) matrix) M).length = n) ∧
    (∀ k, k < n → (((is.foldl (fun matrix i =>
        (List.range' (i + 1) (n - (i + 1))).foldl (fun matrix j =>
          (matrix.set i ((matrix.getD i []).set j (g i j))).set j
            (((matrix.set i ((matrix.getD i []).set j (g i j))).getD j []).set i
              (g i j))) matrix) M).getD k [])).length = n) ∧
    (∀ a b, mread (is.foldl (fun matrix i =>
        (List.range' (i + 1) (n - (i + 1))).foldl (fun matrix j =>
          (matrix.set i ((matrix.getD i []).set j (g i j))).set j
            (((matrix.set i ((matrix.getD i []).set j (g i j))).getD j []).set i
              (g i j))) matrix) M) a b =
      if min a b ∈ is ∧ a < n ∧ b < n ∧ a ≠ b then g (min a b) (max a b)
      else mread M a b) := by
  intro is
  induction is with
  | nil =>
    intro _ M hMl hMr
    refine ⟨hMl, hMr, ?_⟩
    intro a b
    simp
  | cons i t ih =>
    intro his M hMl hMr
    have hin : i < n := his i (List.mem_cons_self i t)
    have hmemjs : ∀ y, y ∈ List.range' (i + 1) (n - (i + 1)) ↔ i < y ∧ y < n := by
      intro y
      rw [List.mem_range'_1]
      omega
    obtain ⟨hIl, hIr, hIspec⟩ := matrix_row_fold_spec n i (g i) hin
      (List.range' (i + 1) (n - (i + 1)))
      (fun j hj => (hmemjs j).mp hj) M hMl hMr
    obtain ⟨hFl, hFr, hFspec⟩ := ih (fun i2 h2 => his i2 (List.mem_cons_of_mem i h2))
      _ hIl hIr
    simp only [List.foldl_cons]
    refine ⟨hFl, hFr, ?_⟩
    intro a b
    rw [hFspec a b, hIspec a b]
    by_cases h1 : min a b ∈ t ∧ a < n ∧ b < n ∧ a ≠ b
    · rw [if_pos h1, if_pos ⟨List.mem_cons_of_mem i h1.1, h1.2⟩]
    · rw [if_neg h1]
      by_cases h2 : a = i ∧ b ∈ List.range' (i + 1) (n - (i + 1))
      · obtain ⟨hbi, hbn⟩ := (hmemjs b).mp h2.2
        have hmin : min a b = i := by omega
        have hmax : max a b = b := by omega
        rw [if_pos h2,
          if_pos ⟨hmin ▸ List.mem_cons_self i t, by omega, hbn, by omega⟩,
          hmin, hmax]
      · rw [if_neg h2]
        by_cases h3 : b = i ∧ a ∈ List.range' (i + 1) (n - (i + 1))
        · obtain ⟨hai, han⟩ := (hmemjs a).mp h3.2
          have hmin : min a b = i := by omega
          have hmax : max a b = a := by omega
          rw [if_pos h3,
            if_pos ⟨hmin ▸ List.mem_cons_self i t, han, by omega, by omega⟩,
            hmin, hmax]
        · rw [if_neg h3, if_neg ?_]
          rintro ⟨hmem, han, hbn, hne⟩
          rcases List.mem_cons.mp hmem with hmi | hmt
          · rcases Nat.lt_or_ge a b with hab | hab
            · exact h2 ⟨by omega, (hmemjs b).mpr ⟨by omega, hbn⟩⟩
            · exact h3 ⟨by omega, (hmemjs a).mpr ⟨by omega, han⟩⟩
          · exact h1 ⟨hmt, han, hbn, hne⟩

/-- Characterisation of `build_distance_matrix`: an `n × n` matrix whose
cell `(a, b)` holds the provider's value for the unordered pair
`{a, b}` (queried with the lower index first, exactly as the source does)
off the diagonal, and `0` on the diagonal and outside. -/
theorem build_distance_matrix_spec {β α : Type} [Inhabited β] [Zero α]
    (dist : β → β → β → β → α) (coords : List (β × β)) :
    ((build_distance_matrix dist coords).length = coords.length) ∧
    (∀ k, k < coords.length →
      (((build_distance_matrix dist coords).getD k [])).length = coords.length) ∧
    (∀ a b, mread (build_distance_matrix dist coords) a b =
      if a < coords.length ∧ b < coords.length ∧ a ≠ b then
        dist (coords[min a b]!).1 (coords[min a b]!).2
          (coords[max a b]!).1 (coords[max a b]!).2
      else 0) := by
  have hM0r : ∀ k, k < coords.length →
      ((List.replicate coords.length
        (List.replicate coords.length (0 : α))).getD k []).length = coords.length := by
    intro k hk
    rw [List.getD_eq_getElem?_getD, List.getElem?_replicate, if_pos hk]
    simp
  have hM0 : ∀ a b, mread (List.replicate coords.length
      (List.replicate coords.length (0 : α))) a b = 0 := by
    intro a b
    unfold mread
    have hrow : (List.replicate coords.length
        (List.replicate coords.length (0 : α))).getD a [] =
        if a < coords.length then List.replicate coords.length 0 else [] := by
      rw [List.getD_eq_getElem?_getD, List.getElem?_replicate]
      by_cases h : a < coords.length
      · rw [if_pos h, if_pos h]; rfl
      · rw [if_neg h, if_neg h]; rfl
    rw [hrow]
    by_cases h : a < coords.length
    · rw [if_pos h]
      rw [List.getD_eq_getElem?_getD, List.getElem?_replicate]
      by_cases h2 : b < coords.length
      · rw [if_pos h2]; rfl
      · rw [if_neg h2]; rfl
    · rw [if_neg h]
      rfl
  obtain ⟨h1, h2, h3⟩ := matrix_fold_spec coords.length
    (fun i j => dist (coords[i]!).1 (coords[i]!).2 (coords[j]!).1 (coords[j]!).2)
    (List.range coords.length) (fun i hi => List.mem_range.mp hi)
    (List.replicate coords.length (List.replicate coords.length 0))
    (by simp) hM0r
  refine ⟨?_, ?_, ?_⟩
  · simp only [build_distance_matrix]
    exact h1
  · simp only [build_distance_matrix]
    exact h2
  · intro a b
    simp only [build_distance_matrix]
    rw [h3 a b]
    by_cases hc : a < coords.length ∧ b < coords.length ∧ a ≠ b
    · rw [if_pos hc,
        if_pos ⟨List.mem_range.mpr (by omega), hc.1, hc.2.1, hc.2.2⟩]
    · rw [if_neg hc,
        if_neg (by rintro ⟨_, hx1, hx2, hx3⟩; exact hc ⟨hx1, hx2, hx3⟩)]
    
      exact hM0 a b

/-- C8: for every list of coordinates and any distance provider returning
non-negative values, `build_distance_matrix` returns a square
`N × N` matrix with zero diagonal, symmetric entries
(`matrix[i][j] = matrix[j][i]` — for ALL indices), and all entries
non-negative. -/
theorem build_distance_matrix_invariants {β α : Type} [Inhabited β] [Zero α]
    [Preorder α] (dist : β → β → β → β → α) (coords : List (β × β))
    (hd : ∀ a b c d, 0 ≤ dist a b c d) :
    ((build_distance_matrix dist coords).length = coords.length) ∧
    (∀ row ∈ build_distance_matrix dist coords, row.length = coords.length) ∧
    (∀ i, i < coords.length → mread (build_distance_matrix dist coords) i i = 0) ∧
    (∀ i j, mread (build_distance_matrix dist coords) i j =
      mread (build_distance_matrix dist coords) j i) ∧
    (∀ i j, 0 ≤ mread (build_distance_matrix dist coords) i j) := by
  obtain ⟨h1, h2, h3⟩ := build_distance_matrix_spec dist coords
  refine ⟨h1, ?_, ?_, ?_, ?_⟩
  · intro row hrow
    obtain ⟨⟨k, hk⟩, hget⟩ := List.mem_iff_get.mp hrow
    have hk2 : k < coords.length := by rw [← h1]; exact hk
    have := h2 k hk2
    rw [List.getD_eq_getElem] at this
    · rw [← hget]
      exact this
  · intro i hi
    rw [h3 i i, if_neg (by rintro ⟨_, _, hne⟩; exact hne rfl)]
  · intro i j
    rw [h3 i j, h3 j i, Nat.min_comm j i, Nat.max_comm j i]
    by_cases hc : i < coords.length ∧ j < coords.length ∧ i ≠ j
    · rw [if_pos hc, if_pos ⟨hc.2.1, hc.1, fun h => hc.2.2 h.symm⟩]
    · rw [if_neg hc,
        if_neg (by rintro ⟨hx1, hx2, hx3⟩; exact hc ⟨hx2, hx1, fun h => hx3 h.symm⟩)]
  · intro i j
    rw [h3 i j]
    by_cases hc : i < coords.length ∧ j < coords.length ∧ i ≠ j
    · rw [if_pos hc]
      exact hd _ _ _ _
    · rw [if_neg hc]

/-- Witness for `build_distance_matrix_invariants` with a concrete constant
provider and two points. -/
theorem build_distance_matrix_invariants_witness :
    ((build_distance_matrix (fun _ _ _ _ => (1 : ℚ))
        [((0 : ℚ), (0 : ℚ)), (1, 1)]).length = 2) ∧
    (∀ row ∈ build_distance_matrix (fun _ _ _ _ => (1 : ℚ))
        [((0 : ℚ), (0 : ℚ)), (1, 1)], row.length = 2) ∧
    (∀ i, i < 2 → mread (build_distance_matrix (fun _ _ _ _ => (1 : ℚ))
        [((0 : ℚ), (0 : ℚ)), (1, 1)]) i i = 0) ∧
    (∀ i j, mread (build_distance_matrix (fun _ _ _ _ => (1 : ℚ))
        [((0 : ℚ), (0 : ℚ)), (1, 1)]) i j =
      mread (build_distance_matrix (fun _ _ _ _ => (1 : ℚ))
        [((0 : ℚ), (0 : ℚ)), (1, 1)]) j i) ∧
    (∀ i j, 0 ≤ mread (build_distance_matrix (fun _ _ _ _ => (1 : ℚ))
        [((0 : ℚ), (0 : ℚ)), (1, 1)]) i j) :=
  build_distance_matrix_invariants (fun _ _ _ _ => (1 : ℚ))
    [((0 : ℚ), (0 : ℚ)), (1, 1)] (fun _ _ _ _ => zero_le_one)
